import Mathlib

/-!
Verification of the batched LOR (low-order-refined) sparse-matrix assembly core
(`fem/lor/lor_batched.cpp`): the two-pass CSR construction (row-count pass
`FillI`, fill pass `FillJAndData`) with min-element election for deduplication,
essential-DOF elimination (serial and distributed variants), and the
feasibility check `FormIsSupported`.

Machine integers are modelled as `ℤ`/`ℕ` (all quantities involved are far from
overflow), floating-point values as `ℚ`.  The parallel `MFEM_FORALL` loops are
modelled as folds over the iteration list; order-independence is proved where
claimed.
-/

namespace LORAssembly

/-- Decode a signed DOF index: `index = v >= 0 ? v : -1 - v`
(as in `FillI` / `FillJAndData`). -/
def decode (v : ℤ) : ℕ :=
  if 0 ≤ v then v.toNat else (-1 - v).toNat

/-- Orientation flag carried by a signed DOF index: `true` iff non-negative. -/
def orientB (v : ℤ) : Bool := decide (0 ≤ v)

/-- The inputs of the two assembly passes: the element↔DOF incidence data
from the `ElementRestriction` (`GatherMap` = `elDofLex`, `Offsets` = `K`,
`Indices` = `g2l`), the local sparsity template `smap` (`sparse_mapping`,
negative = absent) and the per-element value tensor `V` (`sparse_ij`). -/
structure LOR where
  nvdof : ℕ
  ndof : ℕ
  nel : ℕ
  nnzRow : ℕ
  elDofLex : ℕ → ℕ → ℤ
  K : ℕ → ℕ
  g2l : ℕ → ℤ
  smap : ℕ → ℕ → ℤ
  V : ℕ → ℕ → ℕ → ℚ

/-- Length of the incidence list of global DOF `d` (`i_ne` / `j_ne`). -/
def ine (inp : LOR) (d : ℕ) : ℕ := inp.K (d + 1) - inp.K d

/-- Decoded E-vector index stored at position `t` of DOF `d`'s incidence list. -/
def posE (inp : LOR) (d t : ℕ) : ℕ := decode (inp.g2l (inp.K d + t))

/-- Element owning the `t`-th reference to DOF `d` (`i_elts[t]`). -/
def posElt (inp : LOR) (d t : ℕ) : ℕ := posE inp d t / inp.ndof

/-- Local slot of the `t`-th reference to DOF `d` (decoded `i_B[t]`). -/
def posSlot (inp : LOR) (d t : ℕ) : ℕ := posE inp d t % inp.ndof

/-- Orientation flag of the `t`-th reference to DOF `d`. -/
def posSign (inp : LOR) (d t : ℕ) : Bool := decide (0 ≤ inp.g2l (inp.K d + t))

/-- Signed local slot of the `t`-th reference to DOF `d` (`i_B[t]`,
"encode with sign"). -/
def sslot (inp : LOR) (d t : ℕ) : ℤ :=
  if 0 ≤ inp.g2l (inp.K d + t) then (posSlot inp d t : ℤ)
  else -1 - (posSlot inp d t : ℤ)

/-- The element list of DOF `d`'s incidence list (`i_elts[]` / `j_elts[]`). -/
def ielts (inp : LOR) (d : ℕ) : List ℕ :=
  (List.range (ine inp d)).map (posElt inp d)

/-- `GetMinElt`: minimal element index found in both lists, with `INT_MAX`
as the initial accumulator value. -/
def GetMinElt (my nbr : List ℕ) : ℕ :=
  my.foldl (fun m e => if e < m then (if nbr.contains e then e else m) else m)
    2147483647

/-- Global row DOF of loop iteration `i` (= `iel_ho * ndof_per_el + ii_el`). -/
def rowIdx (inp : LOR) (i : ℕ) : ℕ :=
  decode (inp.elDofLex (i % inp.ndof) (i / inp.ndof))

/-- Global column DOF of iteration `(i, j)` (decoded LDOF of `map(j, ii_el)`). -/
def colIdx (inp : LOR) (i j : ℕ) : ℕ :=
  decode (inp.elDofLex (inp.smap j (i % inp.ndof)).toNat (i / inp.ndof))

/-- Whether iteration `(i, j)` produces a nonzero: skipped entirely for absent
template entries; counted/written unconditionally when either incidence list
has length 1; otherwise only by the elected minimum common element. -/
def writes (inp : LOR) (i j : ℕ) : Bool :=
  if inp.smap j (i % inp.ndof) < 0 then false
  else if ine inp (rowIdx inp i) == 1 || ine inp (colIdx inp i j) == 1 then true
  else i / inp.ndof == GetMinElt (ielts inp (rowIdx inp i)) (ielts inp (colIdx inp i j))

/-- The iteration space of both passes: `i` over `ndof_per_el * nel_ho`
(outer), `j` over `nnz_per_row` (inner). -/
def allIters (inp : LOR) : List (ℕ × ℕ) :=
  (List.range (inp.ndof * inp.nel)).product (List.range inp.nnzRow)

/-- One step of the counting pass: atomic increment `AtomicAdd(I[ii], 1)`. -/
def fillIStep (inp : LOR) (cnt : ℕ → ℕ) (p : ℕ × ℕ) : ℕ → ℕ :=
  if writes inp p.1 p.2 then
    Function.update cnt (rowIdx inp p.1) (cnt (rowIdx inp p.1) + 1)
  else cnt

/-- The counting pass of `FillI`, run over an iteration list `L`. -/
def fillICounts (inp : LOR) (L : List (ℕ × ℕ)) : ℕ → ℕ :=
  L.foldl (fillIStep inp) fun _ => 0

/-- Per-row nonzero count produced by `FillI` (canonical traversal order). -/
def rowCnt (inp : LOR) (ii : ℕ) : ℕ := fillICounts inp (allIters inp) ii

/-- The CSR row offsets: exclusive prefix sum over the per-row counters
(the sequential loop at the end of `FillI`). -/
def csrI (inp : LOR) (k : ℕ) : ℕ :=
  ∑ ii ∈ Finset.range (min k inp.nvdof), rowCnt inp ii

/-- The number of nonzeros returned by `FillI` (`h_I[nvdof]`). -/
def fillIRet (inp : LOR) : ℕ := csrI inp inp.nvdof

/-- The sign computed in the fill pass:
`((sjj >= 0 && sii >= 0) || (sjj < 0 && sii < 0)) ? 1 : -1`. -/
def sgnOf (sii sjj : ℤ) : ℤ :=
  if (0 ≤ sjj ∧ 0 ≤ sii) ∨ (sjj < 0 ∧ sii < 0) then 1 else -1

/-- Reverse lookup of a nonzero slot in the sparsity template: the first
`m < nnz_per_row` with `map(m, ii_el_2) == jj_el_2`. -/
def revLookup (inp : LOR) (s2 t2 : ℕ) : Option ℕ :=
  (List.range inp.nnzRow).find? fun m => inp.smap m s2 == (t2 : ℤ)

/-- One term of the conflict-case accumulation: the contribution of the pair
(`k`-th reference of the row DOF, `l`-th reference of the column DOF), nonzero
only when both references belong to the same element.  The reference code
reads `V` out of bounds if the reverse lookup fails (asserted there);
the model returns 0 in that case. -/
def conflictRest (inp : LOR) (ii jj k l : ℕ) : ℚ :=
  match revLookup inp (decode (sslot inp ii k)) (decode (sslot inp jj l)) with
  | some m =>
      (sgnOf (sslot inp ii k) (sslot inp jj l) : ℚ)
        * inp.V m (decode (sslot inp ii k)) (posElt inp ii k)
  | none => 0

/-- The guard of the conflict-case accumulation: only reference pairs
belonging to the same element contribute. -/
def conflictTerm (inp : LOR) (ii jj k l : ℕ) : ℚ :=
  if posElt inp ii k = posElt inp jj l then conflictRest inp ii jj k l else 0

/-- The conflict-case aggregated value: sum over every pair of row-owning
and column-owning references that belong to the same element. -/
def conflictVal (inp : LOR) (ii jj : ℕ) : ℚ :=
  ((List.range (ine inp ii)).map fun k =>
    ((List.range (ine inp jj)).map fun l => conflictTerm inp ii jj k l).sum).sum

/-- The value stored by the fill pass for iteration `(i, j)`:
`sgn * V(j, ii_el, iel_ho)` in the no-conflict case, the aggregated
`conflictVal` otherwise. -/
def writeVal (inp : LOR) (i j : ℕ) : ℚ :=
  if ine inp (rowIdx inp i) == 1 || ine inp (colIdx inp i j) == 1 then
    (sgnOf (inp.elDofLex (i % inp.ndof) (i / inp.ndof))
           (inp.elDofLex (inp.smap j (i % inp.ndof)).toNat (i / inp.ndof)) : ℚ)
      * inp.V j (i % inp.ndof) (i / inp.ndof)
  else conflictVal inp (rowIdx inp i) (colIdx inp i j)

/-- The column index stored by the fill pass for iteration `(i, j)`. -/
def writeCol (inp : LOR) (i j : ℕ) : ℕ := colIdx inp i j

/-- State of the fill pass: the private copy of the row offsets used as
per-row write cursors, and the output `J` and `Data` arrays. -/
structure FillSt where
  cur : ℕ → ℕ
  J : ℕ → ℕ
  data : ℕ → ℚ

/-- One step of the fill pass: `GetAndIncrementNnzIndex` on the cursor copy,
then write the column index and value at the claimed slot. -/
def fillStep (inp : LOR) (st : FillSt) (p : ℕ × ℕ) : FillSt :=
  if writes inp p.1 p.2 then
    { cur := Function.update st.cur (rowIdx inp p.1) (st.cur (rowIdx inp p.1) + 1)
      J := Function.update st.J (st.cur (rowIdx inp p.1)) (writeCol inp p.1 p.2)
      data := Function.update st.data (st.cur (rowIdx inp p.1)) (writeVal inp p.1 p.2) }
  else st

/-- The fill pass, run from row offsets `I0` over iteration list `L`.
The cursor is initialized from a copy of `I0` ("Copy A.I into I, use it as
a temporary buffer"); `J`/`Data` start as freshly allocated storage. -/
def fillRun (inp : LOR) (I0 : ℕ → ℕ) (L : List (ℕ × ℕ)) : FillSt :=
  L.foldl (fillStep inp) ⟨I0, fun _ => 0, fun _ => 0⟩

/-- A CSR matrix: dimensions, row offsets `I`, column indices `J`, values
`Data`, and the allocated lengths of `J`/`Data`. -/
structure Mat where
  height : ℕ
  width : ℕ
  I : ℕ → ℕ
  J : ℕ → ℕ
  data : ℕ → ℚ
  jSize : ℕ
  dataSize : ℕ

/-- `FillJAndData`: runs the fill pass on a private copy of `A.I` and stores
the resulting `J`/`Data`; `A.I` itself is not modified. -/
def fillJAndData (inp : LOR) (A : Mat) : Mat :=
  let st := fillRun inp A.I (allIters inp)
  { A with J := st.J, data := st.data }

/-- `SparseIJToCSR`: size the matrix, run `FillI` (row counts + prefix sum),
allocate `J`/`Data` with the returned nonzero count, run `FillJAndData`. -/
def sparseIJToCSR (inp : LOR) : Mat :=
  let nnz := fillIRet inp
  fillJAndData inp
    { height := inp.nvdof, width := inp.nvdof, I := csrI inp
      J := fun _ => 0, data := fun _ => 0, jSize := nnz, dataSize := nnz }

/-- One entry of the serial elimination of row `idof`: skip the diagonal,
otherwise zero the entry and the symmetric counterpart found by a linear
scan (first match) of the counterpart's row. -/
def elimStep (I J : ℕ → ℕ) (idof : ℕ) (d : ℕ → ℚ) (t : ℕ) : ℕ → ℚ :=
  if J (I idof + t) = idof then d
  else
    match (List.range (I (J (I idof + t) + 1) - I (J (I idof + t)))).find?
        (fun u => J (I (J (I idof + t)) + u) == idof) with
    | some u =>
        Function.update (Function.update d (I idof + t) 0)
          (I (J (I idof + t)) + u) 0
    | none => Function.update d (I idof + t) 0

/-- Serial essential-DOF elimination of one row `idof` (diagonal kept). -/
def elimRow (I J : ℕ → ℕ) (idof : ℕ) (d : ℕ → ℚ) : ℕ → ℚ :=
  (List.range (I (idof + 1) - I idof)).foldl (elimStep I J idof) d

/-- The serial elimination loop of `BatchedLORAssembly::Assemble`
(equivalent to `DiagonalPolicy::DIAG_KEEP`): only `Data` changes. -/
def eliminateBC (A : Mat) (ess : List ℕ) : Mat :=
  { A with data := ess.foldl (fun d idof => elimRow A.I A.J idof d) A.data }

/-- The serial entry point: assemble without boundary conditions, then
eliminate the essential DOFs. -/
def assembleLOR (inp : LOR) (ess : List ℕ) : Mat :=
  eliminateBC (sparseIJToCSR inp) ess

/-- A distributed (hypre-style) matrix: local diagonal block and off-diagonal
block, both CSR over the same local rows. -/
structure ParCSR where
  dnrows : ℕ
  oncols : ℕ
  dI : ℕ → ℕ
  dJ : ℕ → ℕ
  dD : ℕ → ℚ
  oI : ℕ → ℕ
  oJ : ℕ → ℕ
  oD : ℕ → ℚ

/-- One entry of the distributed diagonal-block elimination of row `idof`:
set the diagonal entry to the multiplicative identity, otherwise zero the
entry and its symmetric counterpart (first match of a linear scan). -/
def parElimDiagStep (I J : ℕ → ℕ) (idof : ℕ) (d : ℕ → ℚ) (t : ℕ) : ℕ → ℚ :=
  if J (I idof + t) = idof then Function.update d (I idof + t) 1
  else
    match (List.range (I (J (I idof + t) + 1) - I (J (I idof + t)))).find?
        (fun u => J (I (J (I idof + t)) + u) == idof) with
    | some u =>
        Function.update (Function.update d (I idof + t) 0)
          (I (J (I idof + t)) + u) 0
    | none => Function.update d (I idof + t) 0

/-- Distributed elimination in the diagonal block for one essential row. -/
def parElimDiagRow (I J : ℕ → ℕ) (idof : ℕ) (d : ℕ → ℚ) : ℕ → ℚ :=
  (List.range (I (idof + 1) - I idof)).foldl (parElimDiagStep I J idof) d

/-- Distributed elimination: zero an entire off-diagonal-block row. -/
def parElimOffdRow (I : ℕ → ℕ) (idof : ℕ) (d : ℕ → ℚ) : ℕ → ℚ :=
  (List.range (I (idof + 1) - I idof)).foldl
    (fun d t => Function.update d (I idof + t) 0) d

/-- One row of the off-diagonal-block column elimination: zero the first
entry of row `i` whose column is `c`, if any. -/
def parElimOffdColStep (I J : ℕ → ℕ) (c : ℕ) (d : ℕ → ℚ) (i : ℕ) : ℕ → ℚ :=
  match (List.range (I (i + 1) - I i)).find? (fun u => J (I i + u) == c) with
  | some u => Function.update d (I i + u) 0
  | none => d

/-- Distributed elimination: zero off-diagonal-block column `c` by a linear
scan (first match) over every row. -/
def parElimOffdCol (I J : ℕ → ℕ) (nrows c : ℕ) (d : ℕ → ℚ) : ℕ → ℚ :=
  (List.range nrows).foldl (parElimOffdColStep I J c) d

/-- The off-diagonal columns to eliminate, extracted from the communicated
mask (`eliminate_col`). -/
def colsToEliminate (elimCol : ℕ → Bool) (oncols : ℕ) : List ℕ :=
  (List.range oncols).filter elimCol

/-- The distributed elimination of `ParAssemble`, given the essential-row list
and the mask of off-diagonal columns learned (via the matvec-pattern
communication, abstracted here as the received buffer `elimCol`) to be
essential on another domain. -/
def parEliminate (A : ParCSR) (ess : List ℕ) (elimCol : ℕ → Bool) : ParCSR :=
  let dD1 := ess.foldl (fun d idof => parElimDiagRow A.dI A.dJ idof d) A.dD
  let oD1 := ess.foldl (fun d idof => parElimOffdRow A.oI idof d) A.oD
  let oD2 := (colsToEliminate elimCol A.oncols).foldl
    (fun d c => parElimOffdCol A.oI A.oJ A.dnrows c d) oD1
  { A with dD := dD1, oD := oD2 }

/-- The finite-element collection kinds dispatched on by the batched path. -/
inductive FECKind
  | h1
  | nd
  | rt
  | other
deriving DecidableEq

/-- The domain-integrator kinds relevant to the feasibility check. -/
inductive IntegKind
  | diffusion
  | mass
  | curlcurl
  | divdiv
  | vfemass
  | other
deriving DecidableEq

/-- A discretization/formulation descriptor: whether the space uses a tensor
basis, the element-collection kind, and the list of domain integrators. -/
structure FormDescr where
  tensorBasis : Bool
  fec : FECKind
  integs : List IntegKind

/-- `HasIntegrators<T1, T2>`: exactly one integrator of type `T1` or `T2`,
or exactly two integrators, one of each type (in either order). -/
def hasIntegrators (t1 t2 : IntegKind) (l : List IntegKind) : Bool :=
  match l with
  | [i0] => i0 == t1 || i0 == t2
  | [i0, i1] => (i0 == t1 && i1 == t2) || (i0 == t2 && i1 == t1)
  | _ => false

/-- `BatchedLORAssembly::FormIsSupported`. -/
def formIsSupported (d : FormDescr) : Bool :=
  if !d.tensorBasis then false
  else
    match d.fec with
    | .h1 => hasIntegrators .diffusion .mass d.integs
    | .nd => hasIntegrators .curlcurl .vfemass d.integs
    | .rt => hasIntegrators .divdiv .vfemass d.integs
    | .other => false

/-- The static dispatch of `BatchedLORAssembly::Assemble`: whether one of the
specialized kernels is invoked (true) or the call falls through with no
assembly attempted (false).  Note it repeats the integrator checks but not
the tensor-basis check. -/
def assembleDispatch (d : FormDescr) : Bool :=
  match d.fec with
  | .h1 => hasIntegrators .diffusion .mass d.integs
  | .nd => hasIntegrators .curlcurl .vfemass d.integs
  | .rt => hasIntegrators .divdiv .vfemass d.integs
  | .other => false

/-- Modelled from the spec: the driver (`LORDiscretization`, outside the
provided sources) calls the feasibility check first and reports "not
supported" to the caller — returning no matrix — instead of attempting
assembly, when the check fails. -/
def tryAssembleLOR (d : FormDescr) (inp : LOR) (ess : List ℕ) : Option Mat :=
  if formIsSupported d then some (assembleLOR inp ess) else none

/-! ### The fixed-size local element buffers (`int i_elts[Max]`, `Max = 16`) -/

/-- A write into a fixed-size-16 local buffer (`i_elts[e_i] = ...`): an
out-of-bounds write (index ≥ 16) is undefined behaviour in the source; here it
is resolved as a dropped write. -/
def bufWrite (buf : ℕ → ℕ) (t v : ℕ) : ℕ → ℕ :=
  if t < 16 then Function.update buf t v else buf

/-- The element-list buffer as filled by the loop
`for (e_i = 0; e_i < i_ne; ++e_i) i_elts[e_i] = i_E/ndof_per_el;`
run over the fixed-size-16 buffer (initially uninitialized; modelled as 0). -/
def ieltsBuf (inp : LOR) (d : ℕ) : ℕ → ℕ :=
  (List.range (ine inp d)).foldl (fun buf e => bufWrite buf e (posElt inp d e))
    fun _ => 0

/-- `GetMinElt` reading counted buffers, exactly as the source traverses
them (`my_elts[i]` for `i < n_my_elts`, `nbr_elts[j]` for `j < n_nbr_elts`). -/
def GetMinEltBuf (my : ℕ → ℕ) (nmy : ℕ) (nbr : ℕ → ℕ) (nnbr : ℕ) : ℕ :=
  (List.range nmy).foldl
    (fun m i =>
      if my i < m then
        if (List.range nnbr).any fun j => my i == nbr j then my i else m
      else m)
    2147483647

/-- The per-iteration condition of both passes computed through the
fixed-size-16 buffers. -/
def writesBuf (inp : LOR) (i j : ℕ) : Bool :=
  if inp.smap j (i % inp.ndof) < 0 then false
  else if ine inp (rowIdx inp i) == 1 || ine inp (colIdx inp i j) == 1 then true
  else i / inp.ndof
    == GetMinEltBuf (ieltsBuf inp (rowIdx inp i)) (ine inp (rowIdx inp i))
        (ieltsBuf inp (colIdx inp i j)) (ine inp (colIdx inp i j))

/-- The counting pass run through the fixed-size-16 buffers. -/
def fillICountsBuf (inp : LOR) (L : List (ℕ × ℕ)) : ℕ → ℕ :=
  L.foldl
    (fun cnt p =>
      if writesBuf inp p.1 p.2 then
        Function.update cnt (rowIdx inp p.1) (cnt (rowIdx inp p.1) + 1)
      else cnt)
    fun _ => 0

/-- Per-row nonzero count of the buffered counting pass. -/
def rowCntBuf (inp : LOR) (ii : ℕ) : ℕ := fillICountsBuf inp (allIters inp) ii

/-- An input on which a single global DOF is shared by 17 elements, so its
incidence list has length 17 > 16. -/
def CexIn : LOR where
  nvdof := 1
  ndof := 1
  nel := 17
  nnzRow := 1
  elDofLex := fun _ _ => 0
  K := fun d => if d = 0 then 0 else 17
  g2l := fun p => (p : ℤ)
  smap := fun _ _ => 0
  V := fun _ _ _ => 1

/-! ### Derived definitions, spec-side definitions and witness inputs -/

/-- The number of iterations of `L` that produce a nonzero in row `ii`. -/
def countIn (inp : LOR) (L : List (ℕ × ℕ)) (ii : ℕ) : ℕ :=
  L.countP fun p => writes inp p.1 p.2 && (rowIdx inp p.1 == ii)

/-- The sublist of iterations of `L` that produce a nonzero in row `ii`. -/
def rowWrites (inp : LOR) (L : List (ℕ × ℕ)) (ii : ℕ) : List (ℕ × ℕ) :=
  L.filter fun p => writes inp p.1 p.2 && (rowIdx inp p.1 == ii)

/-- The row slice of a fill state: the `(column, value)` pairs stored at
slots `[I0 ii, I0 ii + len)`. -/
def rowSliceL (st : FillSt) (I0 : ℕ → ℕ) (ii len : ℕ) : List (ℕ × ℚ) :=
  (List.range len).map fun t => (st.J (I0 ii + t), st.data (I0 ii + t))

/-- Element `e` asserts the global pair `(ii, jj)` through row slot `s` and
template nonzero slot `k`: the template entry is present and the two slots of
`e` decode to `ii` and `jj`. -/
def assertsB (inp : LOR) (e s k ii jj : ℕ) : Bool :=
  decide (0 ≤ inp.smap k s) && (decode (inp.elDofLex s e) == ii)
    && (decode (inp.elDofLex (inp.smap k s).toNat e) == jj)

/-- All element-local triples (element, row slot, nonzero slot). -/
def triplesList (inp : LOR) : List (ℕ × ℕ × ℕ) :=
  (List.range inp.nel).product ((List.range inp.ndof).product (List.range inp.nnzRow))

/-- Whether the pair `(ii, jj)` is asserted by at least one element. -/
def assertedPairB (inp : LOR) (ii jj : ℕ) : Bool :=
  (triplesList inp).any fun t => assertsB inp t.1 t.2.1 t.2.2 ii jj

/-- The set of distinct columns asserted in row `ii`. -/
def assertedCols (inp : LOR) (ii : ℕ) : Finset ℕ :=
  (Finset.range inp.nvdof).filter fun jj => assertedPairB inp ii jj = true

/-- The orientation sign of the contribution of triple `(e, s, k)`. -/
def elSign (inp : LOR) (e s k : ℕ) : ℤ :=
  sgnOf (inp.elDofLex s e) (inp.elDofLex (inp.smap k s).toNat e)

/-- All element-local triples, as a `Finset`. -/
def allTriples (inp : LOR) : Finset (ℕ × ℕ × ℕ) :=
  Finset.range inp.nel ×ˢ Finset.range inp.ndof ×ˢ Finset.range inp.nnzRow

/-- The total contribution to the pair `(ii, jj)`: the sum over all element
triples asserting the pair of the local value taken with its orientation
sign. -/
def totalContrib (inp : LOR) (ii jj : ℕ) : ℚ :=
  ∑ t ∈ allTriples inp,
    if assertsB inp t.1 t.2.1 t.2.2 ii jj = true
    then (elSign inp t.1 t.2.1 t.2.2 : ℚ) * inp.V t.2.2 t.2.1 t.1 else 0

/-- Well-formedness of the incidence data and sparsity template, as assumed
by the two passes: positive local size, element count below `INT_MAX`,
decoded DOFs in range, the incidence lists sound, complete and duplicate-free
with respect to `elDofLex` (with matching orientation flags), each element
referencing a DOF through at most one slot, the template entries in range and
duplicate-free per row slot, every common owner of an asserted pair asserting
it, and the incidence degree bounded by the fixed buffer size 16. -/
structure WF (inp : LOR) : Prop where
  ndof_pos : 0 < inp.ndof
  nel_lt : inp.nel < 2147483647
  dof_lt : ∀ s < inp.ndof, ∀ e < inp.nel, decode (inp.elDofLex s e) < inp.nvdof
  sound_elt : ∀ d < inp.nvdof, ∀ t < ine inp d, posElt inp d t < inp.nel
  sound_lex : ∀ d < inp.nvdof, ∀ t < ine inp d,
    inp.elDofLex (posSlot inp d t) (posElt inp d t)
      = if posSign inp d t then (d : ℤ) else -1 - (d : ℤ)
  complete : ∀ e < inp.nel, ∀ s < inp.ndof,
    ∃ t < ine inp (decode (inp.elDofLex s e)),
      posElt inp (decode (inp.elDofLex s e)) t = e
        ∧ posSlot inp (decode (inp.elDofLex s e)) t = s
  uniq : ∀ d < inp.nvdof, ∀ t < ine inp d, ∀ t' < ine inp d,
    posElt inp d t = posElt inp d t' → posSlot inp d t = posSlot inp d t' → t = t'
  slot_inj : ∀ e < inp.nel, ∀ s < inp.ndof, ∀ s' < inp.ndof,
    decode (inp.elDofLex s e) = decode (inp.elDofLex s' e) → s = s'
  tmpl_rng : ∀ s < inp.ndof, ∀ k < inp.nnzRow,
    0 ≤ inp.smap k s → (inp.smap k s).toNat < inp.ndof
  tmpl_inj : ∀ s < inp.ndof, ∀ k < inp.nnzRow, ∀ k' < inp.nnzRow,
    0 ≤ inp.smap k s → inp.smap k s = inp.smap k' s → k = k'
  cover : ∀ ii < inp.nvdof, ∀ jj < inp.nvdof, assertedPairB inp ii jj = true →
    ∀ e < inp.nel, ∀ s < inp.ndof, ∀ s' < inp.ndof,
      decode (inp.elDofLex s e) = ii → decode (inp.elDofLex s' e) = jj →
      ∃ k < inp.nnzRow, 0 ≤ inp.smap k s ∧ (inp.smap k s).toNat = s'
  deg_le : ∀ d < inp.nvdof, ine inp d ≤ 16

/-- Whether iteration `p` writes an entry into row `ii` with column `jj`. -/
def isWriter (inp : LOR) (ii jj : ℕ) (p : ℕ × ℕ) : Bool :=
  writes inp p.1 p.2 && (rowIdx inp p.1 == ii) && (colIdx inp p.1 p.2 == jj)

/-- Position of the reference `(e, s)` in DOF `d`'s incidence list. -/
def posOf (inp : LOR) (d e s : ℕ) : ℕ :=
  ((List.range (ine inp d)).find?
    fun t => posElt inp d t == e && posSlot inp d t == s).getD 0

/-- A concrete two-element discretization: 3 global DOFs, 2 local slots per
element, dense 2×2 local template; element 0 references DOFs 0, 1 and
element 1 references DOFs 1, 2 (DOF 1 is shared). -/
def WitIn : LOR where
  nvdof := 3
  ndof := 2
  nel := 2
  nnzRow := 2
  elDofLex := fun s e =>
    if e = 0 then (if s = 0 then 0 else 1) else (if s = 0 then 1 else 2)
  K := fun d => if d = 0 then 0 else if d = 1 then 1 else if d = 2 then 3 else 4
  g2l := fun p => if p < 4 then (p : ℤ) else 0
  smap := fun k _ => if k < 2 then (k : ℤ) else -1
  V := fun k s e => (k : ℚ) + 2 * (s : ℚ) + 4 * (e : ℚ) + 1

/-- Spec-side reading of "one or both of the supported pair": the integrator
list is one of the two kinds alone, or both in either order. -/
def pairOk (t1 t2 : IntegKind) (l : List IntegKind) : Prop :=
  l = [t1] ∨ l = [t2] ∨ l = [t1, t2] ∨ l = [t2, t1]

/-- A dense 4×4 matrix (every row holds columns 0..3). -/
def Wit4 : Mat where
  height := 4
  width := 4
  I := fun r => 4 * r
  J := fun n => n % 4
  data := fun n => (n : ℚ) + 1
  jSize := 16
  dataSize := 16

/-- A distributed matrix with dense 2×2 diagonal and off-diagonal blocks. -/
def WitPar : ParCSR where
  dnrows := 2
  oncols := 2
  dI := fun r => 2 * r
  dJ := fun n => n % 2
  dD := fun n => (n : ℚ) + 1
  oI := fun r => 2 * r
  oJ := fun n => n % 2
  oD := fun n => (n : ℚ) + 5

/-! ### Basic decoding facts -/

theorem decode_of_nonneg {v : ℤ} (h : 0 ≤ v) : (decode v : ℤ) = v := by
  simp [decode, h, Int.toNat_of_nonneg]

theorem decode_of_neg {v : ℤ} (h : v < 0) : (decode v : ℤ) = -1 - v := by
  have h1 : ¬ (0 ≤ v) := not_le.mpr h
  have h2 : (0 : ℤ) ≤ -1 - v := by omega
  simp [decode, h1, Int.toNat_of_nonneg h2]

theorem decode_natCast (n : ℕ) : decode (n : ℤ) = n := by
  simp [decode]

theorem decode_encode (n : ℕ) (b : Bool) :
    decode (if b then (n : ℤ) else -1 - (n : ℤ)) = n := by
  cases b with
  | true => simp [decode]
  | false =>
      simp only [Bool.false_eq_true, if_false]
      have h : (-1 - (n : ℤ)) < 0 := by omega
      have h2 := decode_of_neg h
      omega

theorem orientB_encode (n : ℕ) (b : Bool) :
    orientB (if b then (n : ℤ) else -1 - (n : ℤ)) = b := by
  cases b with
  | true => simp [orientB]
  | false => simp [orientB]; omega

theorem decode_sslot (inp : LOR) (d t : ℕ) :
    decode (sslot inp d t) = posSlot inp d t := by
  unfold sslot
  by_cases h : 0 ≤ inp.g2l (inp.K d + t)
  · simp [h, decode_natCast]
  · rw [if_neg h]
    have hneg : (-1 - (posSlot inp d t : ℤ)) < 0 := by omega
    have := decode_of_neg hneg
    omega

theorem orientB_sslot (inp : LOR) (d t : ℕ) :
    orientB (sslot inp d t) = posSign inp d t := by
  unfold sslot posSign
  by_cases h : 0 ≤ inp.g2l (inp.K d + t)
  · simp [h, orientB]
  · simp [h, orientB]; omega

/-- `sgnOf` depends only on the orientation flags of its arguments. -/
theorem sgnOf_eq_of_orientB_eq {a a' b b' : ℤ}
    (ha : orientB a = orientB a') (hb : orientB b = orientB b') :
    sgnOf a b = sgnOf a' b' := by
  unfold orientB at ha hb
  unfold sgnOf
  by_cases h1 : 0 ≤ a <;> by_cases h2 : 0 ≤ a' <;>
    by_cases h3 : 0 ≤ b <;> by_cases h4 : 0 ≤ b' <;>
    simp [h1, h2, h3, h4] at ha hb ⊢ <;> omega

/-! ### The counting pass as a `countP` -/

theorem length_rowWrites (inp : LOR) (L : List (ℕ × ℕ)) (ii : ℕ) :
    (rowWrites inp L ii).length = countIn inp L ii :=
  (List.countP_eq_length_filter _ _).symm

theorem fillIStep_apply (inp : LOR) (cnt : ℕ → ℕ) (p : ℕ × ℕ) (ii : ℕ) :
    fillIStep inp cnt p ii
      = cnt ii + (if writes inp p.1 p.2 && (rowIdx inp p.1 == ii) then 1 else 0) := by
  unfold fillIStep
  by_cases hw : writes inp p.1 p.2 = true
  · rw [if_pos hw]
    rcases eq_or_ne (rowIdx inp p.1) ii with h | h
    · subst h; simp [hw]
    · rw [Function.update_noteq (Ne.symm h)]
      simp [hw, h]
  · simp [hw]

theorem foldl_fillIStep (inp : LOR) (L : List (ℕ × ℕ)) (cnt : ℕ → ℕ) (ii : ℕ) :
    (L.foldl (fillIStep inp) cnt) ii = cnt ii + countIn inp L ii := by
  induction L generalizing cnt with
  | nil => simp [countIn]
  | cons p L ih =>
      rw [List.foldl_cons, ih, fillIStep_apply]
      unfold countIn
      rw [List.countP_cons]
      omega

theorem fillICounts_eq (inp : LOR) (L : List (ℕ × ℕ)) (ii : ℕ) :
    fillICounts inp L ii = countIn inp L ii := by
  unfold fillICounts
  rw [foldl_fillIStep]
  simp

theorem fillICounts_perm (inp : LOR) {L L' : List (ℕ × ℕ)} (h : L.Perm L') (ii : ℕ) :
    fillICounts inp L ii = fillICounts inp L' ii := by
  rw [fillICounts_eq, fillICounts_eq]
  exact h.countP_eq _

theorem rowCnt_eq_countIn (inp : LOR) (ii : ℕ) :
    rowCnt inp ii = countIn inp (allIters inp) ii :=
  fillICounts_eq _ _ _

/-! ### `GetMinElt` computes the least common element -/

theorem getMinElt_eq_foldl_min (nbr : List ℕ) :
    ∀ (my : List ℕ) (a : ℕ),
      my.foldl (fun m e => if e < m then (if nbr.contains e then e else m) else m) a
        = (my.filter fun e => nbr.contains e).foldl min a := by
  intro my
  induction my with
  | nil => intro a; rfl
  | cons e my ih =>
      intro a
      rw [List.foldl_cons, ih]
      by_cases hc : nbr.contains e = true
      · rw [List.filter_cons_of_pos hc, List.foldl_cons]
        congr 1
        show (if e < a then (if nbr.contains e then e else a) else a) = min a e
        by_cases he : e < a
        · rw [if_pos he, if_pos hc, Nat.min_def, if_neg (by omega)]
        · rw [if_neg he, Nat.min_def, if_pos (by omega)]
      · rw [List.filter_cons_of_neg hc]
        congr 1
        show (if e < a then (if nbr.contains e then e else a) else a) = a
        by_cases he : e < a
        · rw [if_pos he, if_neg hc]
        · rw [if_neg he]

theorem foldl_min_le_init (l : List ℕ) (a : ℕ) : l.foldl min a ≤ a := by
  induction l generalizing a with
  | nil => exact le_refl a
  | cons x l ih =>
      rw [List.foldl_cons]
      exact le_trans (ih _) (Nat.min_le_left _ _)

theorem foldl_min_le_mem (l : List ℕ) (a : ℕ) {x : ℕ} (hx : x ∈ l) :
    l.foldl min a ≤ x := by
  induction l generalizing a with
  | nil => cases hx
  | cons y l ih =>
      rw [List.foldl_cons]
      rcases List.mem_cons.mp hx with h | h
      · subst h
        exact le_trans (foldl_min_le_init _ _) (Nat.min_le_right _ _)
      · exact ih _ h

theorem foldl_min_mem_or (l : List ℕ) (a : ℕ) :
    l.foldl min a = a ∨ l.foldl min a ∈ l := by
  induction l generalizing a with
  | nil => exact Or.inl rfl
  | cons x l ih =>
      rw [List.foldl_cons]
      rcases ih (min a x) with h | h
      · rw [h]
        rcases Nat.le_total a x with hax | hax
        · exact Or.inl (Nat.min_eq_left hax)
        · exact Or.inr (by rw [Nat.min_eq_right hax]; exact List.mem_cons_self _ _)
      · exact Or.inr (List.mem_cons_of_mem _ h)

/-- `GetMinElt` is a lower bound for every common element. -/
theorem getMinElt_le (my nbr : List ℕ) {x : ℕ} (hmy : x ∈ my) (hnbr : x ∈ nbr) :
    GetMinElt my nbr ≤ x := by
  unfold GetMinElt
  rw [getMinElt_eq_foldl_min]
  refine foldl_min_le_mem _ _ ?_
  rw [List.mem_filter]
  exact ⟨hmy, by simpa [List.elem_iff] using hnbr⟩

/-- `GetMinElt` is either the `INT_MAX` sentinel or a common element. -/
theorem getMinElt_mem_or (my nbr : List ℕ) :
    GetMinElt my nbr = 2147483647
      ∨ (GetMinElt my nbr ∈ my ∧ GetMinElt my nbr ∈ nbr) := by
  unfold GetMinElt
  rw [getMinElt_eq_foldl_min]
  rcases foldl_min_mem_or (my.filter fun e => nbr.contains e) 2147483647 with h | h
  · exact Or.inl h
  · rw [List.mem_filter] at h
    exact Or.inr ⟨h.1, by simpa [List.elem_iff] using h.2⟩

/-- If some common element is below the sentinel, `GetMinElt` is the least
common element. -/
theorem getMinElt_common {my nbr : List ℕ} {x : ℕ} (hmy : x ∈ my) (hnbr : x ∈ nbr)
    (hx : x < 2147483647) :
    GetMinElt my nbr ∈ my ∧ GetMinElt my nbr ∈ nbr
      ∧ ∀ y ∈ my, y ∈ nbr → GetMinElt my nbr ≤ y := by
  have hle := getMinElt_le my nbr hmy hnbr
  rcases getMinElt_mem_or my nbr with h | h
  · omega
  · exact ⟨h.1, h.2, fun y hy hy' => getMinElt_le my nbr hy hy'⟩

/-! ### The fill pass fold -/

theorem fillStep_cur (inp : LOR) (st : FillSt) (p : ℕ × ℕ) (ii : ℕ) :
    (fillStep inp st p).cur ii
      = st.cur ii + (if writes inp p.1 p.2 && (rowIdx inp p.1 == ii) then 1 else 0) := by
  unfold fillStep
  by_cases hw : writes inp p.1 p.2 = true
  · rw [if_pos hw]
    rcases eq_or_ne (rowIdx inp p.1) ii with h | h
    · subst h; simp [hw]
    · simp only []
      rw [Function.update_noteq (Ne.symm h)]
      simp [hw, h]
  · simp [hw]

theorem foldl_fillStep_cur (inp : LOR) (L : List (ℕ × ℕ)) (st : FillSt) (ii : ℕ) :
    (L.foldl (fillStep inp) st).cur ii = st.cur ii + countIn inp L ii := by
  induction L generalizing st with
  | nil => simp [countIn]
  | cons p L ih =>
      rw [List.foldl_cons, ih, fillStep_cur]
      unfold countIn
      rw [List.countP_cons]
      omega

theorem fillRun_cur (inp : LOR) (I0 : ℕ → ℕ) (L : List (ℕ × ℕ)) (ii : ℕ) :
    (fillRun inp I0 L).cur ii = I0 ii + countIn inp L ii := by
  unfold fillRun
  rw [foldl_fillStep_cur]

theorem fillStep_of_writes (inp : LOR) (st : FillSt) (p : ℕ × ℕ)
    (hw : writes inp p.1 p.2 = true) :
    fillStep inp st p =
      { cur := Function.update st.cur (rowIdx inp p.1) (st.cur (rowIdx inp p.1) + 1)
        J := Function.update st.J (st.cur (rowIdx inp p.1)) (writeCol inp p.1 p.2)
        data := Function.update st.data (st.cur (rowIdx inp p.1)) (writeVal inp p.1 p.2) } := by
  unfold fillStep
  rw [if_pos hw]

theorem fillStep_of_not_writes (inp : LOR) (st : FillSt) (p : ℕ × ℕ)
    (hw : ¬ writes inp p.1 p.2 = true) :
    fillStep inp st p = st := by
  unfold fillStep
  rw [if_neg hw]

/-- The fill pass writes, for each row, exactly the `(column, value)` pairs of
its nonzero-producing iterations, in traversal order, into the slots starting
at that row's offset — provided the slot ranges of distinct rows do not
overlap. -/
theorem fillRun_slice (inp : LOR) (I0 : ℕ → ℕ) (L : List (ℕ × ℕ)) :
    (∀ r r', r ≠ r' → ∀ t t', t < countIn inp L r → t' < countIn inp L r' →
        I0 r + t ≠ I0 r' + t') →
    ∀ ii, rowSliceL (fillRun inp I0 L) I0 ii (countIn inp L ii)
      = (rowWrites inp L ii).map fun p => (writeCol inp p.1 p.2, writeVal inp p.1 p.2) := by
  induction L using List.reverseRecOn with
  | nil => intro _ ii; simp [rowSliceL, countIn, rowWrites, fillRun]
  | append_singleton L p ih =>
      intro hdisj ii
      have hcle : ∀ r, countIn inp L r ≤ countIn inp (L ++ [p]) r := by
        intro r
        unfold countIn
        rw [List.countP_append]
        omega
      have hdisjL : ∀ r r', r ≠ r' → ∀ t t', t < countIn inp L r →
          t' < countIn inp L r' → I0 r + t ≠ I0 r' + t' :=
        fun r r' hne t t' ht ht' =>
          hdisj r r' hne t t' (lt_of_lt_of_le ht (hcle r)) (lt_of_lt_of_le ht' (hcle r'))
      have hih := ih hdisjL
      have hrun : fillRun inp I0 (L ++ [p]) = fillStep inp (fillRun inp I0 L) p := by
        unfold fillRun
        rw [List.foldl_concat]
      by_cases hw : writes inp p.1 p.2 = true
      · have hcntr : countIn inp (L ++ [p]) (rowIdx inp p.1)
            = countIn inp L (rowIdx inp p.1) + 1 := by
          unfold countIn
          rw [List.countP_append]
          simp [hw]
        by_cases hir : ii = rowIdx inp p.1
        · subst hir
          have hrw1 : rowWrites inp (L ++ [p]) (rowIdx inp p.1)
              = rowWrites inp L (rowIdx inp p.1) ++ [p] := by
            unfold rowWrites
            rw [List.filter_append]
            simp [hw]
          rw [hrun, hcntr, hrw1]
          unfold rowSliceL
          rw [List.range_succ, List.map_append, List.map_append]
          congr 1
          · have hpre := hih (rowIdx inp p.1)
            unfold rowSliceL at hpre
            rw [← hpre]
            apply List.map_congr_left
            intro t ht
            rw [List.mem_range] at ht
            have hne : I0 (rowIdx inp p.1) + t ≠ (fillRun inp I0 L).cur (rowIdx inp p.1) := by
              rw [fillRun_cur]
              omega
            rw [fillStep_of_writes _ _ _ hw]
            dsimp only
            rw [Function.update_noteq hne, Function.update_noteq hne]
          · rw [fillStep_of_writes _ _ _ hw]
            dsimp only [List.map_cons, List.map_nil]
            have hcur : (fillRun inp I0 L).cur (rowIdx inp p.1)
                = I0 (rowIdx inp p.1) + countIn inp L (rowIdx inp p.1) :=
              fillRun_cur _ _ _ _
            rw [← hcur, Function.update_same, Function.update_same]
        · have hcnt1 : countIn inp (L ++ [p]) ii = countIn inp L ii := by
            unfold countIn
            rw [List.countP_append]
            have : (rowIdx inp p.1 == ii) = false := by
              simp
              exact fun h => hir h.symm
            simp [this]
          have hrw1 : rowWrites inp (L ++ [p]) ii = rowWrites inp L ii := by
            unfold rowWrites
            rw [List.filter_append]
            have : (rowIdx inp p.1 == ii) = false := by
              simp
              exact fun h => hir h.symm
            simp [this]
          rw [hrun, hcnt1, hrw1, ← hih ii]
          unfold rowSliceL
          apply List.map_congr_left
          intro t ht
          rw [List.mem_range] at ht
          have hne : I0 ii + t ≠ (fillRun inp I0 L).cur (rowIdx inp p.1) := by
            rw [fillRun_cur]
            exact hdisj ii (rowIdx inp p.1) hir t (countIn inp L (rowIdx inp p.1))
              (by omega) (by omega)
          rw [fillStep_of_writes _ _ _ hw]
          dsimp only
          rw [Function.update_noteq hne, Function.update_noteq hne]
      · have hcnt1 : countIn inp (L ++ [p]) ii = countIn inp L ii := by
          unfold countIn
          rw [List.countP_append]
          simp [hw]
        have hrw1 : rowWrites inp (L ++ [p]) ii = rowWrites inp L ii := by
          unfold rowWrites
          rw [List.filter_append]
          simp [hw]
        rw [hrun, fillStep_of_not_writes _ _ _ hw, hcnt1, hrw1]
        exact hih ii

theorem csrI_mono (inp : LOR) : Monotone (csrI inp) := by
  intro a b hab
  unfold csrI
  apply Finset.sum_le_sum_of_subset
  apply Finset.range_subset.mpr
  omega

theorem csrI_zero (inp : LOR) : csrI inp 0 = 0 := by
  unfold csrI
  simp

theorem csrI_succ (inp : LOR) {ii : ℕ} (h : ii < inp.nvdof) :
    csrI inp (ii + 1) = csrI inp ii + rowCnt inp ii := by
  unfold csrI
  rw [min_eq_left (by omega), min_eq_left (by omega), Finset.sum_range_succ]

/-- If every nonzero-producing iteration has its row DOF below `nvdof`, the
slot ranges `[csrI ii, csrI (ii+1))` of distinct rows do not overlap (for any
traversal order of the iteration space). -/
theorem disj_of_perm (inp : LOR) {L : List (ℕ × ℕ)} (hL : L.Perm (allIters inp))
    (hrow : ∀ p : ℕ × ℕ, p ∈ allIters inp → writes inp p.1 p.2 = true →
      rowIdx inp p.1 < inp.nvdof) :
    ∀ r r', r ≠ r' → ∀ t t', t < countIn inp L r → t' < countIn inp L r' →
      csrI inp r + t ≠ csrI inp r' + t' := by
  intro r r' hne t t' ht ht'
  have hcnt : ∀ s, countIn inp L s = rowCnt inp s := by
    intro s
    rw [rowCnt_eq_countIn]
    exact hL.countP_eq _
  have hlt : ∀ s, 0 < countIn inp L s → s < inp.nvdof := by
    intro s hs
    obtain ⟨a, haL, hap⟩ := List.countP_pos_iff.mp hs
    have hmem : a ∈ allIters inp := hL.mem_iff.mp haL
    rw [Bool.and_eq_true, beq_iff_eq] at hap
    have := hrow a hmem hap.1
    omega
  have hr : r < inp.nvdof := hlt r (by omega)
  have hr' : r' < inp.nvdof := hlt r' (by omega)
  rcases Nat.lt_or_ge r r' with hlt' | hge
  · have h1 : csrI inp r + t < csrI inp (r + 1) := by
      rw [csrI_succ inp hr]
      rw [hcnt r] at ht
      omega
    have h2 : csrI inp (r + 1) ≤ csrI inp r' := csrI_mono inp (by omega)
    omega
  · have hlt2 : r' < r := by omega
    have h1 : csrI inp r' + t' < csrI inp (r' + 1) := by
      rw [csrI_succ inp hr']
      rw [hcnt r'] at ht'
      omega
    have h2 : csrI inp (r' + 1) ≤ csrI inp r := csrI_mono inp (by omega)
    omega

/-! ### Spec-side notions: asserted pairs and contribution sums -/

theorem assertedPairB_iff (inp : LOR) (ii jj : ℕ) :
    assertedPairB inp ii jj = true
      ↔ ∃ e < inp.nel, ∃ s < inp.ndof, ∃ k < inp.nnzRow,
          assertsB inp e s k ii jj = true := by
  unfold assertedPairB triplesList
  rw [List.any_eq_true]
  constructor
  · rintro ⟨⟨e, s, k⟩, hmem, hp⟩
    rw [List.pair_mem_product] at hmem
    obtain ⟨he, hmem2⟩ := hmem
    rw [List.pair_mem_product] at hmem2
    obtain ⟨hs, hk⟩ := hmem2
    rw [List.mem_range] at he hs hk
    exact ⟨e, he, s, hs, k, hk, hp⟩
  · rintro ⟨e, he, s, hs, k, hk, hp⟩
    refine ⟨(e, s, k), ?_, hp⟩
    rw [List.pair_mem_product, List.pair_mem_product]
    simp [List.mem_range, he, hs, hk]

theorem assertsB_iff (inp : LOR) (e s k ii jj : ℕ) :
    assertsB inp e s k ii jj = true
      ↔ 0 ≤ inp.smap k s ∧ decode (inp.elDofLex s e) = ii
          ∧ decode (inp.elDofLex (inp.smap k s).toNat e) = jj := by
  unfold assertsB
  rw [Bool.and_eq_true, Bool.and_eq_true]
  simp [and_assoc]

/-! ### Well-formedness of the assembly inputs -/

theorem posSlot_lt (inp : LOR) (hwf : WF inp) (d t : ℕ) : posSlot inp d t < inp.ndof :=
  Nat.mod_lt _ hwf.ndof_pos

theorem pos_decode (inp : LOR) (hwf : WF inp) {d t : ℕ} (hd : d < inp.nvdof)
    (ht : t < ine inp d) :
    decode (inp.elDofLex (posSlot inp d t) (posElt inp d t)) = d := by
  rw [hwf.sound_lex d hd t ht, decode_encode]

theorem pos_orient (inp : LOR) (hwf : WF inp) {d t : ℕ} (hd : d < inp.nvdof)
    (ht : t < ine inp d) :
    orientB (inp.elDofLex (posSlot inp d t) (posElt inp d t)) = posSign inp d t := by
  rw [hwf.sound_lex d hd t ht, orientB_encode]

theorem mem_ielts_iff (inp : LOR) (d e : ℕ) :
    e ∈ ielts inp d ↔ ∃ t, t < ine inp d ∧ posElt inp d t = e := by
  unfold ielts
  constructor
  · intro h
    obtain ⟨t, ht, rfl⟩ := List.mem_map.mp h
    exact ⟨t, List.mem_range.mp ht, rfl⟩
  · rintro ⟨t, ht, rfl⟩
    exact List.mem_map.mpr ⟨t, List.mem_range.mpr ht, rfl⟩

theorem mem_ielts_of_ref (inp : LOR) (hwf : WF inp) {e s : ℕ}
    (he : e < inp.nel) (hs : s < inp.ndof) :
    e ∈ ielts inp (decode (inp.elDofLex s e)) := by
  obtain ⟨t, ht, helt, _⟩ := hwf.complete e he s hs
  exact (mem_ielts_iff _ _ _).mpr ⟨t, ht, helt⟩

theorem ref_of_mem_ielts (inp : LOR) (hwf : WF inp) {d e : ℕ} (hd : d < inp.nvdof)
    (h : e ∈ ielts inp d) :
    e < inp.nel ∧ ∃ s < inp.ndof, decode (inp.elDofLex s e) = d := by
  obtain ⟨t, ht, rfl⟩ := (mem_ielts_iff _ _ _).mp h
  exact ⟨hwf.sound_elt d hd t ht,
    posSlot inp d t, posSlot_lt inp hwf d t, pos_decode inp hwf hd ht⟩

/-! ### The writer analysis -/

theorem mem_allIters_iff (inp : LOR) (p : ℕ × ℕ) :
    p ∈ allIters inp ↔ p.1 < inp.ndof * inp.nel ∧ p.2 < inp.nnzRow := by
  unfold allIters
  rcases p with ⟨i, j⟩
  rw [List.pair_mem_product]
  simp [List.mem_range]

theorem iter_mod (inp : LOR) {e s : ℕ} (hs : s < inp.ndof) :
    (e * inp.ndof + s) % inp.ndof = s := by
  rw [Nat.add_comm, Nat.add_mul_mod_self_right, Nat.mod_eq_of_lt hs]

theorem iter_div (inp : LOR) (hwf : WF inp) {e s : ℕ} (hs : s < inp.ndof) :
    (e * inp.ndof + s) / inp.ndof = e := by
  rw [Nat.add_comm, Nat.add_mul_div_right _ _ hwf.ndof_pos, Nat.div_eq_of_lt hs]
  omega

theorem iter_lt (inp : LOR) {e s : ℕ} (he : e < inp.nel) (hs : s < inp.ndof) :
    e * inp.ndof + s < inp.ndof * inp.nel := by
  have h1 : e * inp.ndof + s < (e + 1) * inp.ndof := by
    rw [Nat.succ_mul]
    omega
  have h2 : (e + 1) * inp.ndof ≤ inp.nel * inp.ndof :=
    Nat.mul_le_mul_right _ (by omega)
  rw [Nat.mul_comm inp.ndof inp.nel]
  omega

theorem idx_mod_lt (inp : LOR) (hwf : WF inp) (i : ℕ) : i % inp.ndof < inp.ndof :=
  Nat.mod_lt _ hwf.ndof_pos

theorem idx_div_lt (inp : LOR) (hwf : WF inp) {i : ℕ} (hi : i < inp.ndof * inp.nel) :
    i / inp.ndof < inp.nel := by
  rw [Nat.div_lt_iff_lt_mul hwf.ndof_pos]
  rw [Nat.mul_comm] at hi
  exact hi

/-- Unfolding of the per-iteration condition when the template entry is
present. -/
theorem writes_iff (inp : LOR) {i j : ℕ} (hsm : ¬ inp.smap j (i % inp.ndof) < 0) :
    writes inp i j = true ↔
      ((ine inp (rowIdx inp i) = 1 ∨ ine inp (colIdx inp i j) = 1)
        ∨ (¬(ine inp (rowIdx inp i) = 1 ∨ ine inp (colIdx inp i j) = 1)
            ∧ i / inp.ndof
              = GetMinElt (ielts inp (rowIdx inp i)) (ielts inp (colIdx inp i j)))) := by
  unfold writes
  rw [if_neg hsm]
  by_cases h1 : (ine inp (rowIdx inp i) == 1 || ine inp (colIdx inp i j) == 1) = true
  · rw [if_pos h1]
    rw [Bool.or_eq_true, beq_iff_eq, beq_iff_eq] at h1
    simp [h1]
  · rw [if_neg h1]
    rw [Bool.or_eq_true, beq_iff_eq, beq_iff_eq] at h1
    push_neg at h1
    constructor
    · intro h
      rw [beq_iff_eq] at h
      exact Or.inr ⟨by tauto, h⟩
    · intro h
      rcases h with h | h
      · exact absurd h (by tauto)
      · rw [beq_iff_eq]
        exact h.2

theorem isWriter_iff (inp : LOR) (ii jj : ℕ) (p : ℕ × ℕ) :
    isWriter inp ii jj p = true
      ↔ writes inp p.1 p.2 = true ∧ rowIdx inp p.1 = ii ∧ colIdx inp p.1 p.2 = jj := by
  unfold isWriter
  rw [Bool.and_eq_true, Bool.and_eq_true, beq_iff_eq, beq_iff_eq]
  tauto

/-- A writing iteration yields an asserting triple. -/
theorem asserts_of_writer (inp : LOR) (hwf : WF inp) {ii jj : ℕ} {p : ℕ × ℕ}
    (hmem : p ∈ allIters inp) (hw : isWriter inp ii jj p = true) :
    assertsB inp (p.1 / inp.ndof) (p.1 % inp.ndof) p.2 ii jj = true
      ∧ p.1 / inp.ndof < inp.nel ∧ p.1 % inp.ndof < inp.ndof ∧ p.2 < inp.nnzRow := by
  obtain ⟨hi, hj⟩ := (mem_allIters_iff inp p).mp hmem
  obtain ⟨hwr, hrow, hcol⟩ := (isWriter_iff inp ii jj p).mp hw
  have hsm : ¬ inp.smap p.2 (p.1 % inp.ndof) < 0 := by
    intro hneg
    unfold writes at hwr
    rw [if_pos hneg] at hwr
    exact Bool.false_ne_true hwr
  refine ⟨?_, idx_div_lt inp hwf hi, idx_mod_lt inp hwf p.1, hj⟩
  rw [assertsB_iff]
  exact ⟨by omega, hrow, hcol⟩

/-- An asserting triple yields an iteration of the loop with the asserted
row and column. -/
theorem iter_of_triple (inp : LOR) (hwf : WF inp) {e s k ii jj : ℕ}
    (he : e < inp.nel) (hs : s < inp.ndof) (hk : k < inp.nnzRow)
    (ha : assertsB inp e s k ii jj = true) :
    (e * inp.ndof + s, k) ∈ allIters inp
      ∧ rowIdx inp (e * inp.ndof + s) = ii
      ∧ colIdx inp (e * inp.ndof + s) k = jj := by
  obtain ⟨hsm, hrow, hcol⟩ := (assertsB_iff inp e s k ii jj).mp ha
  have hmod := iter_mod inp (e := e) hs
  have hdiv := iter_div inp hwf (e := e) hs
  refine ⟨(mem_allIters_iff inp _).mpr ⟨iter_lt inp he hs, hk⟩, ?_, ?_⟩
  · unfold rowIdx
    rw [hmod, hdiv]
    exact hrow
  · unfold colIdx
    rw [hmod, hdiv]
    exact hcol

/-- The row and column DOFs of an asserting triple are in range. -/
theorem asserted_dofs_lt (inp : LOR) (hwf : WF inp) {e s k ii jj : ℕ}
    (he : e < inp.nel) (hs : s < inp.ndof) (hk : k < inp.nnzRow)
    (ha : assertsB inp e s k ii jj = true) :
    ii < inp.nvdof ∧ jj < inp.nvdof := by
  obtain ⟨hsm, hrow, hcol⟩ := (assertsB_iff inp e s k ii jj).mp ha
  constructor
  · rw [← hrow]
    exact hwf.dof_lt s hs e he
  · rw [← hcol]
    exact hwf.dof_lt _ (hwf.tmpl_rng s hs k hk hsm) e he

/-- Both slots of an asserting triple own the asserted DOFs. -/
theorem triple_owns (inp : LOR) (hwf : WF inp) {e s k ii jj : ℕ}
    (he : e < inp.nel) (hs : s < inp.ndof) (hk : k < inp.nnzRow)
    (ha : assertsB inp e s k ii jj = true) :
    e ∈ ielts inp ii ∧ e ∈ ielts inp jj := by
  obtain ⟨hsm, hrow, hcol⟩ := (assertsB_iff inp e s k ii jj).mp ha
  constructor
  · rw [← hrow]
    exact mem_ielts_of_ref inp hwf he hs
  · rw [← hcol]
    exact mem_ielts_of_ref inp hwf he (hwf.tmpl_rng s hs k hk hsm)

/-- Two asserting triples of the same pair with the same element agree on
slot and template index. -/
theorem triple_eq_of_elt_eq (inp : LOR) (hwf : WF inp) {e s k s' k' ii jj : ℕ}
    (he : e < inp.nel) (hs : s < inp.ndof) (hk : k < inp.nnzRow)
    (hs' : s' < inp.ndof) (hk' : k' < inp.nnzRow)
    (ha : assertsB inp e s k ii jj = true) (ha' : assertsB inp e s' k' ii jj = true) :
    s = s' ∧ k = k' := by
  obtain ⟨hsm, hrow, hcol⟩ := (assertsB_iff inp e s k ii jj).mp ha
  obtain ⟨hsm', hrow', hcol'⟩ := (assertsB_iff inp e s' k' ii jj).mp ha'
  have hss : s = s' := hwf.slot_inj e he s hs s' hs' (by rw [hrow, hrow'])
  subst hss
  have hc : (inp.smap k s).toNat = (inp.smap k' s).toNat :=
    hwf.slot_inj e he _ (hwf.tmpl_rng s hs k hk hsm) _ (hwf.tmpl_rng s hs k' hk' hsm')
      (by rw [hcol, hcol'])
  have hz : inp.smap k s = inp.smap k' s := by omega
  exact ⟨rfl, hwf.tmpl_inj s hs k hk k' hk' hsm hz⟩

/-- In the no-conflict case (either incidence list has length one), the
asserting triple of a pair is unique. -/
theorem triple_unique_noconflict (inp : LOR) (hwf : WF inp) {e s k e' s' k' ii jj : ℕ}
    (h1 : ine inp ii = 1 ∨ ine inp jj = 1)
    (he : e < inp.nel) (hs : s < inp.ndof) (hk : k < inp.nnzRow)
    (he' : e' < inp.nel) (hs' : s' < inp.ndof) (hk' : k' < inp.nnzRow)
    (ha : assertsB inp e s k ii jj = true)
    (ha2 : assertsB inp e' s' k' ii jj = true) :
    e = e' ∧ s = s' ∧ k = k' := by
  have hii : ii < inp.nvdof := (asserted_dofs_lt inp hwf he hs hk ha).1
  have hjj : jj < inp.nvdof := (asserted_dofs_lt inp hwf he hs hk ha).2
  have hee : e = e' := by
    rcases h1 with h1 | h1
    · obtain ⟨t, ht, rfl⟩ := (mem_ielts_iff _ _ _).mp (triple_owns inp hwf he hs hk ha).1
      obtain ⟨t', ht', he2⟩ :=
        (mem_ielts_iff _ _ _).mp (triple_owns inp hwf he' hs' hk' ha2).1
      rw [h1] at ht ht'
      have : t = t' := by omega
      rw [← he2, this]
    · obtain ⟨t, ht, rfl⟩ := (mem_ielts_iff _ _ _).mp (triple_owns inp hwf he hs hk ha).2
      obtain ⟨t', ht', he2⟩ :=
        (mem_ielts_iff _ _ _).mp (triple_owns inp hwf he' hs' hk' ha2).2
      rw [h1] at ht ht'
      have : t = t' := by omega
      rw [← he2, this]
  subst hee
  obtain ⟨h2, h3⟩ := triple_eq_of_elt_eq inp hwf he hs hk hs' hk' ha ha2
  exact ⟨rfl, h2, h3⟩

/-- For every asserted pair there is a writing iteration: in the no-conflict
case the asserting element itself, otherwise the elected minimum common
element (which asserts the pair by `cover`). -/
theorem writer_exists (inp : LOR) (hwf : WF inp) {ii jj : ℕ}
    (ha : assertedPairB inp ii jj = true) :
    ∃ p ∈ allIters inp, isWriter inp ii jj p = true := by
  obtain ⟨e0, he0, s0, hs0, k0, hk0, ha0⟩ := (assertedPairB_iff inp ii jj).mp ha
  obtain ⟨hii, hjj⟩ := asserted_dofs_lt inp hwf he0 hs0 hk0 ha0
  by_cases h1 : ine inp ii = 1 ∨ ine inp jj = 1
  · obtain ⟨hmem, hrow, hcol⟩ := iter_of_triple inp hwf he0 hs0 hk0 ha0
    refine ⟨(e0 * inp.ndof + s0, k0), hmem, ?_⟩
    rw [isWriter_iff]
    refine ⟨?_, hrow, hcol⟩
    have hsm0 := ((assertsB_iff inp e0 s0 k0 ii jj).mp ha0).1
    have hsm : ¬ inp.smap k0 ((e0 * inp.ndof + s0) % inp.ndof) < 0 := by
      rw [iter_mod inp hs0]
      omega
    rw [writes_iff inp hsm]
    left
    show ine inp (rowIdx inp (e0 * inp.ndof + s0)) = 1
      ∨ ine inp (colIdx inp (e0 * inp.ndof + s0) k0) = 1
    rw [hrow, hcol]
    exact h1
  · have he0ii : e0 ∈ ielts inp ii := (triple_owns inp hwf he0 hs0 hk0 ha0).1
    have he0jj : e0 ∈ ielts inp jj := (triple_owns inp hwf he0 hs0 hk0 ha0).2
    have he0lt : e0 < 2147483647 := by
      have := hwf.nel_lt
      omega
    obtain ⟨hmmii, hmmjj, hmin⟩ := getMinElt_common he0ii he0jj he0lt
    obtain ⟨hmnel, sstar, hsstar, hrowm⟩ := ref_of_mem_ielts inp hwf hii hmmii
    obtain ⟨_, tstar, htstar, hcolm⟩ := ref_of_mem_ielts inp hwf hjj hmmjj
    obtain ⟨kstar, hkstar, hsk0, hskt⟩ :=
      hwf.cover ii hii jj hjj ha (GetMinElt (ielts inp ii) (ielts inp jj)) hmnel
        sstar hsstar tstar htstar hrowm hcolm
    have hsk : inp.smap kstar sstar = (tstar : ℤ) := by omega
    have hamin : assertsB inp (GetMinElt (ielts inp ii) (ielts inp jj)) sstar kstar ii jj
        = true := by
      rw [assertsB_iff]
      refine ⟨by rw [hsk]; exact Int.natCast_nonneg _, hrowm, ?_⟩
      rw [hsk, Int.toNat_natCast]
      exact hcolm
    obtain ⟨hmem, hrow, hcol⟩ := iter_of_triple inp hwf hmnel hsstar hkstar hamin
    refine ⟨(GetMinElt (ielts inp ii) (ielts inp jj) * inp.ndof + sstar, kstar), hmem, ?_⟩
    rw [isWriter_iff]
    refine ⟨?_, hrow, hcol⟩
    have hsm : ¬ inp.smap kstar
        ((GetMinElt (ielts inp ii) (ielts inp jj) * inp.ndof + sstar) % inp.ndof) < 0 := by
      rw [iter_mod inp hsstar, hsk]
      omega
    rw [writes_iff inp hsm]
    right
    constructor
    · show ¬(ine inp (rowIdx inp _) = 1 ∨ ine inp (colIdx inp _ kstar) = 1)
      rw [hrow, hcol]
      exact h1
    · rw [iter_div inp hwf hsstar, hrow, hcol]

/-- The writing iteration of a pair is unique. -/
theorem writer_eq (inp : LOR) (hwf : WF inp) {ii jj : ℕ} {p q : ℕ × ℕ}
    (hpmem : p ∈ allIters inp) (hqmem : q ∈ allIters inp)
    (hp : isWriter inp ii jj p = true) (hq : isWriter inp ii jj q = true) : p = q := by
  obtain ⟨hap, hep, hsp, hkp⟩ := asserts_of_writer inp hwf hpmem hp
  obtain ⟨haq, heq2, hsq, hkq⟩ := asserts_of_writer inp hwf hqmem hq
  have hee : p.1 / inp.ndof = q.1 / inp.ndof := by
    by_cases h1 : ine inp ii = 1 ∨ ine inp jj = 1
    · exact (triple_unique_noconflict inp hwf h1 hep hsp hkp heq2 hsq hkq hap haq).1
    · obtain ⟨hwp, hrowp, hcolp⟩ := (isWriter_iff _ _ _ _).mp hp
      obtain ⟨hwq, hrowq, hcolq⟩ := (isWriter_iff _ _ _ _).mp hq
      have hsmp : ¬ inp.smap p.2 (p.1 % inp.ndof) < 0 := by
        have := ((assertsB_iff inp _ _ _ _ _).mp hap).1
        omega
      have hsmq : ¬ inp.smap q.2 (q.1 % inp.ndof) < 0 := by
        have := ((assertsB_iff inp _ _ _ _ _).mp haq).1
        omega
      rw [writes_iff inp hsmp, hrowp, hcolp] at hwp
      rw [writes_iff inp hsmq, hrowq, hcolq] at hwq
      rcases hwp with hwp | hwp
      · exact absurd hwp h1
      · rcases hwq with hwq | hwq
        · exact absurd hwq h1
        · rw [hwp.2, hwq.2]
  have haq' : assertsB inp (p.1 / inp.ndof) (q.1 % inp.ndof) q.2 ii jj = true := by
    rw [hee]
    exact haq
  obtain ⟨hseq, hkeq⟩ := triple_eq_of_elt_eq inp hwf hep hsp hkp hsq hkq hap haq'
  have h1 : p.1 = q.1 := by
    have hd1 := Nat.div_add_mod p.1 inp.ndof
    have hd2 := Nat.div_add_mod q.1 inp.ndof
    rw [hee, hseq] at hd1
    omega
  exact Prod.ext h1 hkeq

/-! ### Value correctness of the fill pass -/

theorem list_sum_range (f : ℕ → ℚ) (n : ℕ) :
    ((List.range n).map f).sum = ∑ t ∈ Finset.range n, f t := by
  induction n with
  | zero => simp
  | succ n ih =>
      rw [List.range_succ, List.map_append, List.sum_append, Finset.sum_range_succ, ih]
      simp

theorem find?_range_spec {n : ℕ} {p : ℕ → Bool} (h : ∃ t, t < n ∧ p t = true) :
    ∃ a, (List.range n).find? p = some a ∧ a < n ∧ p a = true := by
  obtain ⟨t, htn, hpt⟩ := h
  have hsome : ((List.range n).find? p).isSome = true :=
    List.find?_isSome.mpr ⟨t, List.mem_range.mpr htn, hpt⟩
  obtain ⟨a, ha⟩ := Option.isSome_iff_exists.mp hsome
  exact ⟨a, ha, List.mem_range.mp (List.mem_of_find?_eq_some ha), List.find?_some ha⟩

theorem posOf_spec (inp : LOR) {d e s : ℕ}
    (h : ∃ t, t < ine inp d ∧ posElt inp d t = e ∧ posSlot inp d t = s) :
    posOf inp d e s < ine inp d ∧ posElt inp d (posOf inp d e s) = e
      ∧ posSlot inp d (posOf inp d e s) = s := by
  obtain ⟨t, ht, he, hs⟩ := h
  obtain ⟨a, ha, haltn, hap⟩ :=
    find?_range_spec (p := fun t => posElt inp d t == e && posSlot inp d t == s)
      ⟨t, ht, by simp [he, hs]⟩
  unfold posOf
  rw [ha, Option.getD_some]
  rw [Bool.and_eq_true, beq_iff_eq, beq_iff_eq] at hap
  exact ⟨haltn, hap.1, hap.2⟩

theorem posOf_uniq (inp : LOR) (hwf : WF inp) {d t e s : ℕ} (hd : d < inp.nvdof)
    (ht : t < ine inp d) (he : posElt inp d t = e) (hs : posSlot inp d t = s) :
    t = posOf inp d e s := by
  obtain ⟨h1, h2, h3⟩ := posOf_spec inp ⟨t, ht, he, hs⟩
  exact hwf.uniq d hd t ht _ h1 (by rw [he, h2]) (by rw [hs, h3])

/-- The reverse lookup of a present template entry finds exactly its slot. -/
theorem revLookup_smap (inp : LOR) (hwf : WF inp) {s k : ℕ} (hs : s < inp.ndof)
    (hk : k < inp.nnzRow) (hsm : 0 ≤ inp.smap k s) :
    revLookup inp s (inp.smap k s).toNat = some k := by
  obtain ⟨a, ha, haltn, hap⟩ := find?_range_spec (n := inp.nnzRow)
    (p := fun m => inp.smap m s == (((inp.smap k s).toNat : ℕ) : ℤ))
    ⟨k, hk, by rw [Int.toNat_of_nonneg hsm]; simp⟩
  unfold revLookup
  rw [ha]
  rw [beq_iff_eq, Int.toNat_of_nonneg hsm] at hap
  exact congrArg some
    (hwf.tmpl_inj s hs a haltn k hk (by rw [hap]; exact hsm) hap)

theorem totalContrib_eq_filter (inp : LOR) (ii jj : ℕ) :
    totalContrib inp ii jj
      = ∑ t ∈ (allTriples inp).filter
          (fun t => assertsB inp t.1 t.2.1 t.2.2 ii jj = true),
          (elSign inp t.1 t.2.1 t.2.2 : ℚ) * inp.V t.2.2 t.2.1 t.1 := by
  unfold totalContrib
  rw [Finset.sum_filter]

theorem mem_allTriples_iff (inp : LOR) (t : ℕ × ℕ × ℕ) :
    t ∈ allTriples inp
      ↔ t.1 < inp.nel ∧ t.2.1 < inp.ndof ∧ t.2.2 < inp.nnzRow := by
  unfold allTriples
  rw [Finset.mem_product, Finset.mem_product]
  simp [Finset.mem_range, and_assoc]

/-- No-conflict case: the total contribution collapses to the unique
asserting triple's signed value. -/
theorem totalContrib_noconflict (inp : LOR) (hwf : WF inp) {ii jj e s k : ℕ}
    (h1 : ine inp ii = 1 ∨ ine inp jj = 1)
    (he : e < inp.nel) (hs : s < inp.ndof) (hk : k < inp.nnzRow)
    (ha : assertsB inp e s k ii jj = true) :
    totalContrib inp ii jj = (elSign inp e s k : ℚ) * inp.V k s e := by
  rw [totalContrib_eq_filter]
  have hset : (allTriples inp).filter
      (fun t => assertsB inp t.1 t.2.1 t.2.2 ii jj = true) = {(e, s, k)} := by
    rw [Finset.eq_singleton_iff_unique_mem]
    constructor
    · rw [Finset.mem_filter]
      exact ⟨(mem_allTriples_iff inp _).mpr ⟨he, hs, hk⟩, ha⟩
    · rintro ⟨e', s', k'⟩ hx
      rw [Finset.mem_filter] at hx
      obtain ⟨hmem, ha'⟩ := hx
      obtain ⟨he', hs', hk'⟩ := (mem_allTriples_iff inp _).mp hmem
      obtain ⟨h1', h2', h3'⟩ :=
        triple_unique_noconflict inp hwf h1 he' hs' hk' he hs hk ha' ha
      exact Prod.ext h1' (Prod.ext h2' h3')
  rw [hset, Finset.sum_singleton]

/-- The data available for a matching reference pair `(k, l)` of a conflict
accumulation: the unique template slot found by the reverse lookup, and the
induced asserting triple. -/
theorem pairS_facts (inp : LOR) (hwf : WF inp) {ii jj : ℕ} (hii : ii < inp.nvdof)
    (hjj : jj < inp.nvdof) (ha : assertedPairB inp ii jj = true) {k l : ℕ}
    (hk : k < ine inp ii) (hl : l < ine inp jj)
    (heq : posElt inp ii k = posElt inp jj l) :
    ∃ m, revLookup inp (posSlot inp ii k) (posSlot inp jj l) = some m
      ∧ m < inp.nnzRow
      ∧ inp.smap m (posSlot inp ii k) = (posSlot inp jj l : ℤ)
      ∧ assertsB inp (posElt inp ii k) (posSlot inp ii k) m ii jj = true := by
  have he : posElt inp ii k < inp.nel := hwf.sound_elt ii hii k hk
  have hs : posSlot inp ii k < inp.ndof := posSlot_lt inp hwf ii k
  have hc : posSlot inp jj l < inp.ndof := posSlot_lt inp hwf jj l
  have hrow : decode (inp.elDofLex (posSlot inp ii k) (posElt inp ii k)) = ii :=
    pos_decode inp hwf hii hk
  have hcol : decode (inp.elDofLex (posSlot inp jj l) (posElt inp ii k)) = jj := by
    rw [heq]
    exact pos_decode inp hwf hjj hl
  obtain ⟨m, hm, hsm0, hsmt⟩ := hwf.cover ii hii jj hjj ha _ he _ hs _ hc hrow hcol
  have hsm : inp.smap m (posSlot inp ii k) = (posSlot inp jj l : ℤ) := by omega
  have h0 : 0 ≤ inp.smap m (posSlot inp ii k) := hsm0
  have hrl : revLookup inp (posSlot inp ii k) (posSlot inp jj l) = some m := by
    have hx := revLookup_smap inp hwf hs hm h0
    rw [hsm, Int.toNat_natCast] at hx
    exact hx
  refine ⟨m, hrl, hm, hsm, ?_⟩
  rw [assertsB_iff]
  refine ⟨h0, hrow, ?_⟩
  rw [hsm, Int.toNat_natCast]
  exact hcol

/-- Conflict case: the double accumulation over same-element reference pairs
equals the total contribution of the pair. -/
theorem conflictVal_eq_total (inp : LOR) (hwf : WF inp) {ii jj : ℕ}
    (hii : ii < inp.nvdof) (hjj : jj < inp.nvdof)
    (ha : assertedPairB inp ii jj = true) :
    conflictVal inp ii jj = totalContrib inp ii jj := by
  have h1 : conflictVal inp ii jj
      = ∑ kl ∈ Finset.range (ine inp ii) ×ˢ Finset.range (ine inp jj),
          conflictTerm inp ii jj kl.1 kl.2 := by
    unfold conflictVal
    rw [list_sum_range, Finset.sum_product']
    apply Finset.sum_congr rfl
    intro k _
    rw [list_sum_range]
  have h2 : conflictVal inp ii jj
      = ∑ kl ∈ (Finset.range (ine inp ii) ×ˢ Finset.range (ine inp jj)).filter
          (fun kl => posElt inp ii kl.1 = posElt inp jj kl.2),
          conflictRest inp ii jj kl.1 kl.2 := by
    rw [h1, Finset.sum_filter]
    apply Finset.sum_congr rfl
    intro kl _
    rfl
  rw [h2, totalContrib_eq_filter]
  apply Finset.sum_nbij'
    (i := fun kl => (posElt inp ii kl.1, posSlot inp ii kl.1,
      (revLookup inp (posSlot inp ii kl.1) (posSlot inp jj kl.2)).getD 0))
    (j := fun t => (posOf inp ii t.1 t.2.1, posOf inp jj t.1 (inp.smap t.2.2 t.2.1).toNat))
  · -- forward map lands in the asserting-triples set
    rintro ⟨k, l⟩ hkl
    rw [Finset.mem_filter, Finset.mem_product, Finset.mem_range, Finset.mem_range] at hkl
    obtain ⟨⟨hk, hl⟩, heq⟩ := hkl
    obtain ⟨m, hrl, hm, hsm, hassert⟩ := pairS_facts inp hwf hii hjj ha hk hl heq
    rw [Finset.mem_filter]
    dsimp only
    rw [hrl, Option.getD_some]
    refine ⟨(mem_allTriples_iff inp _).mpr
      ⟨hwf.sound_elt ii hii k hk, posSlot_lt inp hwf ii k, hm⟩, hassert⟩
  · -- backward map lands in the matching-pairs set
    rintro ⟨e, s, kk⟩ ht
    rw [Finset.mem_filter] at ht
    obtain ⟨hmem, hassert⟩ := ht
    obtain ⟨he, hs, hkk⟩ := (mem_allTriples_iff inp _).mp hmem
    obtain ⟨hsm0, hrow, hcol⟩ := (assertsB_iff inp _ _ _ _ _).mp hassert
    have hc : (inp.smap kk s).toNat < inp.ndof := hwf.tmpl_rng s hs kk hkk hsm0
    have hex1 : ∃ t, t < ine inp ii ∧ posElt inp ii t = e ∧ posSlot inp ii t = s := by
      obtain ⟨t, htl, h1', h2'⟩ := hwf.complete e he s hs
      rw [hrow] at htl h1' h2'
      exact ⟨t, htl, h1', h2'⟩
    have hex2 : ∃ t, t < ine inp jj ∧ posElt inp jj t = e
        ∧ posSlot inp jj t = (inp.smap kk s).toNat := by
      obtain ⟨t, htl, h1', h2'⟩ := hwf.complete e he _ hc
      rw [hcol] at htl h1' h2'
      exact ⟨t, htl, h1', h2'⟩
    obtain ⟨hp1, hp2, hp3⟩ := posOf_spec inp hex1
    obtain ⟨hq1, hq2, hq3⟩ := posOf_spec inp hex2
    rw [Finset.mem_filter, Finset.mem_product, Finset.mem_range, Finset.mem_range]
    dsimp only
    refine ⟨⟨hp1, hq1⟩, ?_⟩
    rw [hp2, hq2]
  · -- left inverse
    rintro ⟨k, l⟩ hkl
    rw [Finset.mem_filter, Finset.mem_product, Finset.mem_range, Finset.mem_range] at hkl
    obtain ⟨⟨hk, hl⟩, heq⟩ := hkl
    obtain ⟨m, hrl, hm, hsm, hassert⟩ := pairS_facts inp hwf hii hjj ha hk hl heq
    dsimp only
    rw [hrl, Option.getD_some, hsm, Int.toNat_natCast]
    have hk' : k = posOf inp ii (posElt inp ii k) (posSlot inp ii k) :=
      posOf_uniq inp hwf hii hk rfl rfl
    have hl' : l = posOf inp jj (posElt inp ii k) (posSlot inp jj l) :=
      posOf_uniq inp hwf hjj hl heq.symm rfl
    rw [← hk', ← hl']
  · -- right inverse
    rintro ⟨e, s, kk⟩ ht
    rw [Finset.mem_filter] at ht
    obtain ⟨hmem, hassert⟩ := ht
    obtain ⟨he, hs, hkk⟩ := (mem_allTriples_iff inp _).mp hmem
    obtain ⟨hsm0, hrow, hcol⟩ := (assertsB_iff inp _ _ _ _ _).mp hassert
    have hc : (inp.smap kk s).toNat < inp.ndof := hwf.tmpl_rng s hs kk hkk hsm0
    have hex1 : ∃ t, t < ine inp ii ∧ posElt inp ii t = e ∧ posSlot inp ii t = s := by
      obtain ⟨t, htl, h1', h2'⟩ := hwf.complete e he s hs
      rw [hrow] at htl h1' h2'
      exact ⟨t, htl, h1', h2'⟩
    have hex2 : ∃ t, t < ine inp jj ∧ posElt inp jj t = e
        ∧ posSlot inp jj t = (inp.smap kk s).toNat := by
      obtain ⟨t, htl, h1', h2'⟩ := hwf.complete e he _ hc
      rw [hcol] at htl h1' h2'
      exact ⟨t, htl, h1', h2'⟩
    obtain ⟨hp1, hp2, hp3⟩ := posOf_spec inp hex1
    obtain ⟨hq1, hq2, hq3⟩ := posOf_spec inp hex2
    dsimp only
    rw [hp2, hp3, hq3, revLookup_smap inp hwf hs hkk hsm0, Option.getD_some]
  · -- values agree
    rintro ⟨k, l⟩ hkl
    rw [Finset.mem_filter, Finset.mem_product, Finset.mem_range, Finset.mem_range] at hkl
    obtain ⟨⟨hk, hl⟩, heq⟩ := hkl
    obtain ⟨m, hrl, hm, hsm, hassert⟩ := pairS_facts inp hwf hii hjj ha hk hl heq
    dsimp only
    rw [hrl, Option.getD_some]
    have hsgn : sgnOf (sslot inp ii k) (sslot inp jj l)
        = elSign inp (posElt inp ii k) (posSlot inp ii k) m := by
      unfold elSign
      rw [hsm, Int.toNat_natCast]
      apply sgnOf_eq_of_orientB_eq
      · rw [orientB_sslot]
        exact (pos_orient inp hwf hii hk).symm
      · rw [orientB_sslot, heq]
        exact (pos_orient inp hwf hjj hl).symm
    unfold conflictRest
    rw [decode_sslot, decode_sslot, hrl, hsgn]

/-- The value stored by a writing iteration is the total signed contribution
of its pair. -/
theorem writeVal_eq_total (inp : LOR) (hwf : WF inp) {ii jj : ℕ} {p : ℕ × ℕ}
    (hmem : p ∈ allIters inp) (hw : isWriter inp ii jj p = true) :
    writeVal inp p.1 p.2 = totalContrib inp ii jj := by
  obtain ⟨hap, hep, hsp, hkp⟩ := asserts_of_writer inp hwf hmem hw
  obtain ⟨hwp, hrowp, hcolp⟩ := (isWriter_iff _ _ _ _).mp hw
  obtain ⟨hii, hjj⟩ := asserted_dofs_lt inp hwf hep hsp hkp hap
  unfold writeVal
  by_cases h1 : (ine inp (rowIdx inp p.1) == 1 || ine inp (colIdx inp p.1 p.2) == 1) = true
  · rw [if_pos h1]
    rw [Bool.or_eq_true, beq_iff_eq, beq_iff_eq, hrowp, hcolp] at h1
    rw [totalContrib_noconflict inp hwf h1 hep hsp hkp hap]
    rfl
  · rw [if_neg h1]
    rw [hrowp, hcolp]
    have ha : assertedPairB inp ii jj = true :=
      (assertedPairB_iff inp ii jj).mpr ⟨_, hep, _, hsp, _, hkp, hap⟩
    exact conflictVal_eq_total inp hwf hii hjj ha

/-! ### The canonical assembled matrix -/

theorem allIters_nodup (inp : LOR) : (allIters inp).Nodup :=
  List.Nodup.product (List.nodup_range _) (List.nodup_range _)

theorem row_lt_nvdof (inp : LOR) (hwf : WF inp) {p : ℕ × ℕ} (hp : p ∈ allIters inp) :
    rowIdx inp p.1 < inp.nvdof := by
  obtain ⟨hi, _⟩ := (mem_allIters_iff inp p).mp hp
  exact hwf.dof_lt _ (idx_mod_lt inp hwf p.1) _ (idx_div_lt inp hwf hi)

theorem mem_rowWrites_iff (inp : LOR) (L : List (ℕ × ℕ)) (ii : ℕ) (p : ℕ × ℕ) :
    p ∈ rowWrites inp L ii
      ↔ p ∈ L ∧ writes inp p.1 p.2 = true ∧ rowIdx inp p.1 = ii := by
  unfold rowWrites
  rw [List.mem_filter, Bool.and_eq_true, beq_iff_eq]

theorem rowWrites_isWriter (inp : LOR) {L : List (ℕ × ℕ)} (hL : L.Perm (allIters inp))
    {ii : ℕ} {p : ℕ × ℕ} (hp : p ∈ rowWrites inp L ii) :
    p ∈ allIters inp ∧ isWriter inp ii (colIdx inp p.1 p.2) p = true := by
  obtain ⟨hpL, hw, hrow⟩ := (mem_rowWrites_iff inp L ii p).mp hp
  exact ⟨hL.mem_iff.mp hpL, (isWriter_iff _ _ _ _).mpr ⟨hw, hrow, rfl⟩⟩

/-- The columns written into row `ii` are exactly the asserted columns. -/
theorem col_mem_rowWrites_iff (inp : LOR) {L : List (ℕ × ℕ)}
    (hL : L.Perm (allIters inp)) (ii jj : ℕ) :
    jj ∈ (rowWrites inp L ii).map (fun p => colIdx inp p.1 p.2)
      ↔ ∃ p ∈ allIters inp, isWriter inp ii jj p = true := by
  constructor
  · intro h
    obtain ⟨p, hp, hcol⟩ := List.mem_map.mp h
    obtain ⟨hmem, hw⟩ := rowWrites_isWriter inp hL hp
    exact ⟨p, hmem, by rw [← hcol]; exact hw⟩
  · rintro ⟨p, hmem, hw⟩
    obtain ⟨hwr, hrow, hcol⟩ := (isWriter_iff _ _ _ _).mp hw
    apply List.mem_map.mpr
    refine ⟨p, (mem_rowWrites_iff inp L ii p).mpr ⟨hL.mem_iff.mpr hmem, hwr, hrow⟩, hcol⟩

/-- The columns written into one row are pairwise distinct. -/
theorem rowWrites_cols_nodup (inp : LOR) (hwf : WF inp) {L : List (ℕ × ℕ)}
    (hL : L.Perm (allIters inp)) (hnd : L.Nodup) (ii : ℕ) :
    ((rowWrites inp L ii).map (fun p => colIdx inp p.1 p.2)).Nodup := by
  apply List.Nodup.map_on
  · intro x hx y hy hcol
    obtain ⟨hxa, hxw⟩ := rowWrites_isWriter inp hL hx
    obtain ⟨hya, hyw⟩ := rowWrites_isWriter inp hL hy
    refine writer_eq inp hwf hxa hya hxw ?_
    rw [hcol]
    exact hyw
  · exact hnd.filter _

/-- The asserted pair behind a writing iteration. -/
theorem asserted_of_writer (inp : LOR) (hwf : WF inp) {ii jj : ℕ} {p : ℕ × ℕ}
    (hmem : p ∈ allIters inp) (hw : isWriter inp ii jj p = true) :
    assertedPairB inp ii jj = true := by
  obtain ⟨hap, hep, hsp, hkp⟩ := asserts_of_writer inp hwf hmem hw
  exact (assertedPairB_iff inp ii jj).mpr ⟨_, hep, _, hsp, _, hkp, hap⟩

theorem canonical_slice (inp : LOR) (hwf : WF inp) {L : List (ℕ × ℕ)}
    (hL : L.Perm (allIters inp)) (ii : ℕ) :
    rowSliceL (fillRun inp (csrI inp) L) (csrI inp) ii (countIn inp L ii)
      = (rowWrites inp L ii).map fun p => (writeCol inp p.1 p.2, writeVal inp p.1 p.2) :=
  fillRun_slice inp (csrI inp) L
    (disj_of_perm inp hL fun _ hp _ => row_lt_nvdof inp hwf hp) ii

/-- Pointwise form of the canonical slice equality: each slot of a row's range
holds the column and value of one nonzero-producing iteration. -/
theorem rowWrites_length_eq (inp : LOR) (ii : ℕ) :
    (rowWrites inp (allIters inp) ii).length = rowCnt inp ii := by
  rw [length_rowWrites, ← rowCnt_eq_countIn]

theorem slice_get (inp : LOR) (hwf : WF inp) (ii : ℕ) {t : ℕ} (ht : t < rowCnt inp ii)
    (htl : t < (rowWrites inp (allIters inp) ii).length) :
    (fillRun inp (csrI inp) (allIters inp)).J (csrI inp ii + t)
      = writeCol inp ((rowWrites inp (allIters inp) ii).get ⟨t, htl⟩).1
          ((rowWrites inp (allIters inp) ii).get ⟨t, htl⟩).2
    ∧ (fillRun inp (csrI inp) (allIters inp)).data (csrI inp ii + t)
      = writeVal inp ((rowWrites inp (allIters inp) ii).get ⟨t, htl⟩).1
          ((rowWrites inp (allIters inp) ii).get ⟨t, htl⟩).2 := by
  have hcnt : countIn inp (allIters inp) ii = rowCnt inp ii := (rowCnt_eq_countIn inp ii).symm
  have hslice := canonical_slice inp hwf (List.Perm.refl (allIters inp)) ii
  rw [hcnt] at hslice
  have hq := congrArg (fun l => l[t]?) hslice
  dsimp only at hq
  unfold rowSliceL at hq
  rw [List.getElem?_map, List.getElem?_map, List.getElem?_range ht,
    List.getElem?_eq_getElem htl, Option.map_some', Option.map_some'] at hq
  have hpq := Option.some.inj hq
  rw [List.get_eq_getElem]
  exact ⟨congrArg Prod.fst hpq, congrArg Prod.snd hpq⟩

/-- Each slot of a row's range is written by a writing iteration of that
row. -/
theorem canon_entry (inp : LOR) (hwf : WF inp) (ii : ℕ) {t : ℕ}
    (ht : t < rowCnt inp ii) :
    ∃ p ∈ allIters inp,
      isWriter inp ii (colIdx inp p.1 p.2) p = true
      ∧ (fillRun inp (csrI inp) (allIters inp)).J (csrI inp ii + t) = colIdx inp p.1 p.2
      ∧ (fillRun inp (csrI inp) (allIters inp)).data (csrI inp ii + t)
          = writeVal inp p.1 p.2 := by
  have htl : t < (rowWrites inp (allIters inp) ii).length := by
    rw [rowWrites_length_eq]
    exact ht
  obtain ⟨hJ, hD⟩ := slice_get inp hwf ii ht htl
  have hmem : (rowWrites inp (allIters inp) ii).get ⟨t, htl⟩
      ∈ rowWrites inp (allIters inp) ii := List.get_mem _ _ htl
  obtain ⟨hmema, hwr⟩ := rowWrites_isWriter inp (List.Perm.refl _) hmem
  exact ⟨_, hmema, hwr, hJ, hD⟩

/-- Within a row's range, the written columns are pairwise distinct. -/
theorem canon_inj (inp : LOR) (hwf : WF inp) (ii : ℕ) {t t' : ℕ}
    (ht : t < rowCnt inp ii) (ht' : t' < rowCnt inp ii)
    (hJ : (fillRun inp (csrI inp) (allIters inp)).J (csrI inp ii + t)
      = (fillRun inp (csrI inp) (allIters inp)).J (csrI inp ii + t')) : t = t' := by
  have htl : t < (rowWrites inp (allIters inp) ii).length := by
    rw [rowWrites_length_eq]
    exact ht
  have htl' : t' < (rowWrites inp (allIters inp) ii).length := by
    rw [rowWrites_length_eq]
    exact ht'
  obtain ⟨hJ1, _⟩ := slice_get inp hwf ii ht htl
  obtain ⟨hJ2, _⟩ := slice_get inp hwf ii ht' htl'
  rw [hJ1, hJ2] at hJ
  have hmem1 : (rowWrites inp (allIters inp) ii).get ⟨t, htl⟩
      ∈ rowWrites inp (allIters inp) ii := List.get_mem _ _ htl
  have hmem2 : (rowWrites inp (allIters inp) ii).get ⟨t', htl'⟩
      ∈ rowWrites inp (allIters inp) ii := List.get_mem _ _ htl'
  obtain ⟨hma1, hw1⟩ := rowWrites_isWriter inp (List.Perm.refl _) hmem1
  obtain ⟨hma2, hw2⟩ := rowWrites_isWriter inp (List.Perm.refl _) hmem2
  have hpq : (rowWrites inp (allIters inp) ii).get ⟨t, htl⟩
      = (rowWrites inp (allIters inp) ii).get ⟨t', htl'⟩ := by
    refine writer_eq inp hwf hma1 hma2 hw1 ?_
    obtain ⟨hwr2, hrow2, hcol2⟩ := (isWriter_iff _ _ _ _).mp hw2
    rw [isWriter_iff]
    unfold writeCol at hJ
    exact ⟨hwr2, hrow2, hJ.symm⟩
  have hnd : (rowWrites inp (allIters inp) ii).Nodup := (allIters_nodup inp).filter _
  rw [List.get_eq_getElem, List.get_eq_getElem] at hpq
  exact (hnd.getElem_inj_iff).mp hpq

/-- For every asserted pair there is a slot of the row holding its column. -/
theorem canon_col_exists (inp : LOR) (hwf : WF inp) {ii jj : ℕ}
    (ha : assertedPairB inp ii jj = true) :
    ∃ t, t < rowCnt inp ii
      ∧ (fillRun inp (csrI inp) (allIters inp)).J (csrI inp ii + t) = jj := by
  obtain ⟨p, hpmem, hpw⟩ := writer_exists inp hwf ha
  obtain ⟨hwr, hrow, hcol⟩ := (isWriter_iff _ _ _ _).mp hpw
  have hp : p ∈ rowWrites inp (allIters inp) ii :=
    (mem_rowWrites_iff inp _ ii p).mpr ⟨hpmem, hwr, hrow⟩
  obtain ⟨t, htl, hpt⟩ := List.getElem_of_mem hp
  have ht : t < rowCnt inp ii := by
    rw [rowWrites_length_eq] at htl
    exact htl
  obtain ⟨hJ, _⟩ := slice_get inp hwf ii ht htl
  rw [List.get_eq_getElem, hpt] at hJ
  exact ⟨t, ht, by rw [hJ]; exact hcol⟩

/-! ### Concrete witness input: two 1D elements sharing one DOF -/

theorem WitIn_cover : ∀ ii < WitIn.nvdof, ∀ jj < WitIn.nvdof,
    assertedPairB WitIn ii jj = true →
    ∀ e < WitIn.nel, ∀ s < WitIn.ndof, ∀ s' < WitIn.ndof,
      decode (WitIn.elDofLex s e) = ii → decode (WitIn.elDofLex s' e) = jj →
      ∃ k < WitIn.nnzRow, 0 ≤ WitIn.smap k s ∧ (WitIn.smap k s).toNat = s' := by
  have key : ∀ s < 2, ∀ s' < 2, ∃ k < 2,
      0 ≤ WitIn.smap k s ∧ (WitIn.smap k s).toNat = s' := by decide
  intro ii _ jj _ _ e _ s hs s' hs' _ _
  exact key s hs s' hs'

theorem WitIn_wf : WF WitIn :=
  ⟨by decide, by decide, by decide, by decide, by decide, by decide, by decide,
   by decide, by decide, by decide, WitIn_cover, by decide⟩

/-- C1: for every distinct global (row, col) pair asserted by at least one
element, the fill pass writes exactly one entry into the CSR output (so no
row's `J` slice contains a duplicate column), and its value equals the sum of
all element-local contributions to that pair, each taken with its orientation
sign — in the conflict case only the elected minimum common element writes,
after accumulating over every same-element pair of row-owning and
column-owning references via reverse lookup in the sparsity template. -/
theorem claim_C1 (inp : LOR) (hwf : WF inp) (ii : ℕ) (hii : ii < inp.nvdof) :
    (∀ jj, assertedPairB inp ii jj = true
        ↔ ∃ n, (sparseIJToCSR inp).I ii ≤ n ∧ n < (sparseIJToCSR inp).I (ii + 1)
            ∧ (sparseIJToCSR inp).J n = jj)
    ∧ (∀ n n', (sparseIJToCSR inp).I ii ≤ n → n < (sparseIJToCSR inp).I (ii + 1) →
        (sparseIJToCSR inp).I ii ≤ n' → n' < (sparseIJToCSR inp).I (ii + 1) →
        (sparseIJToCSR inp).J n = (sparseIJToCSR inp).J n' → n = n')
    ∧ (∀ n, (sparseIJToCSR inp).I ii ≤ n → n < (sparseIJToCSR inp).I (ii + 1) →
        (sparseIJToCSR inp).data n = totalContrib inp ii ((sparseIJToCSR inp).J n)) := by
  have hrange : ∀ n, ((sparseIJToCSR inp).I ii ≤ n ∧ n < (sparseIJToCSR inp).I (ii + 1))
      ↔ ∃ t, t < rowCnt inp ii ∧ n = csrI inp ii + t := by
    intro n
    show (csrI inp ii ≤ n ∧ n < csrI inp (ii + 1)) ↔ _
    rw [csrI_succ inp hii]
    constructor
    · rintro ⟨h1, h2⟩
      exact ⟨n - csrI inp ii, by omega, by omega⟩
    · rintro ⟨t, ht, rfl⟩
      omega
  refine ⟨?_, ?_, ?_⟩
  · intro jj
    constructor
    · intro ha
      obtain ⟨t, ht, hJ⟩ := canon_col_exists inp hwf ha
      exact ⟨csrI inp ii + t, ((hrange _).mpr ⟨t, ht, rfl⟩).1,
        ((hrange _).mpr ⟨t, ht, rfl⟩).2, hJ⟩
    · rintro ⟨n, h1, h2, hJ⟩
      obtain ⟨t, ht, rfl⟩ := (hrange n).mp ⟨h1, h2⟩
      obtain ⟨p, hpmem, hpw, hpJ, _⟩ := canon_entry inp hwf ii ht
      have : colIdx inp p.1 p.2 = jj := by rw [← hpJ]; exact hJ
      rw [← this]
      exact asserted_of_writer inp hwf hpmem hpw
  · intro n n' h1 h2 h1' h2' hJ
    obtain ⟨t, ht, rfl⟩ := (hrange n).mp ⟨h1, h2⟩
    obtain ⟨t', ht', rfl⟩ := (hrange n').mp ⟨h1', h2'⟩
    have := canon_inj inp hwf ii ht ht' hJ
    omega
  · intro n h1 h2
    obtain ⟨t, ht, rfl⟩ := (hrange n).mp ⟨h1, h2⟩
    obtain ⟨p, hpmem, hpw, hpJ, hpD⟩ := canon_entry inp hwf ii ht
    show (fillRun inp (csrI inp) (allIters inp)).data (csrI inp ii + t)
      = totalContrib inp ii ((fillRun inp (csrI inp) (allIters inp)).J (csrI inp ii + t))
    rw [hpD, hpJ]
    exact writeVal_eq_total inp hwf hpmem hpw

/-- C1 witness: the two-element instance, row 1 (the shared DOF's row). -/
theorem claim_C1_witness :
    WF WitIn ∧ 1 < WitIn.nvdof
    ∧ ((∀ jj, assertedPairB WitIn 1 jj = true
        ↔ ∃ n, (sparseIJToCSR WitIn).I 1 ≤ n ∧ n < (sparseIJToCSR WitIn).I 2
            ∧ (sparseIJToCSR WitIn).J n = jj)
      ∧ (∀ n n', (sparseIJToCSR WitIn).I 1 ≤ n → n < (sparseIJToCSR WitIn).I 2 →
          (sparseIJToCSR WitIn).I 1 ≤ n' → n' < (sparseIJToCSR WitIn).I 2 →
          (sparseIJToCSR WitIn).J n = (sparseIJToCSR WitIn).J n' → n = n')
      ∧ (∀ n, (sparseIJToCSR WitIn).I 1 ≤ n → n < (sparseIJToCSR WitIn).I 2 →
          (sparseIJToCSR WitIn).data n = totalContrib WitIn 1 ((sparseIJToCSR WitIn).J n))) :=
  ⟨WitIn_wf, by decide, claim_C1 WitIn WitIn_wf 1 (by decide)⟩

/-- C2: the row-count pass counts each distinct asserted (row, col) pair
exactly once, independent of traversal order: the counts are invariant under
any permutation of the iteration space, and the count of every row equals the
number of distinct columns asserted in that row. -/
theorem claim_C2 (inp : LOR) (hwf : WF inp) :
    (∀ L, L.Perm (allIters inp) → ∀ ii, fillICounts inp L ii = rowCnt inp ii)
    ∧ (∀ ii < inp.nvdof, rowCnt inp ii = (assertedCols inp ii).card) := by
  constructor
  · intro L hL ii
    exact fillICounts_perm inp hL ii
  · intro ii hii
    have hnd := rowWrites_cols_nodup inp hwf (List.Perm.refl (allIters inp))
      (allIters_nodup inp) ii
    have hcard : ((rowWrites inp (allIters inp) ii).map
        fun p => colIdx inp p.1 p.2).toFinset.card
        = (rowWrites inp (allIters inp) ii).length := by
      rw [List.toFinset_card_of_nodup hnd, List.length_map]
    rw [← rowWrites_length_eq inp ii, ← hcard]
    congr 1
    ext jj
    rw [List.mem_toFinset, col_mem_rowWrites_iff inp (List.Perm.refl _) ii jj]
    unfold assertedCols
    rw [Finset.mem_filter, Finset.mem_range]
    constructor
    · rintro ⟨p, hpmem, hpw⟩
      obtain ⟨hap, hep, hsp, hkp⟩ := asserts_of_writer inp hwf hpmem hpw
      exact ⟨(asserted_dofs_lt inp hwf hep hsp hkp hap).2,
        asserted_of_writer inp hwf hpmem hpw⟩
    · rintro ⟨_, ha⟩
      exact writer_exists inp hwf ha

/-- C2 witness: the two-element instance. -/
theorem claim_C2_witness :
    WF WitIn
    ∧ ((∀ L, L.Perm (allIters WitIn) → ∀ ii, fillICounts WitIn L ii = rowCnt WitIn ii)
      ∧ (∀ ii < WitIn.nvdof, rowCnt WitIn ii = (assertedCols WitIn ii).card)) :=
  ⟨WitIn_wf, claim_C2 WitIn WitIn_wf⟩

/-- C9: assembly is deterministic up to within-row ordering — any traversal
order (permutation of the iteration space, modelling the atomic-claim
interleaving) produces the same per-row counts (hence the same row offsets),
and for every row the same multiset of (column, value) pairs; only the order
within a row's slice may differ. -/
theorem claim_C9 (inp : LOR) (hwf : WF inp) (L : List (ℕ × ℕ))
    (hL : L.Perm (allIters inp)) :
    (∀ k, fillICounts inp L k = rowCnt inp k)
    ∧ (∀ ii,
        ((rowSliceL (fillRun inp (csrI inp) L) (csrI inp) ii (rowCnt inp ii)
          : List (ℕ × ℚ)) : Multiset (ℕ × ℚ))
        = ((rowSliceL (fillRun inp (csrI inp) (allIters inp)) (csrI inp) ii
            (rowCnt inp ii) : List (ℕ × ℚ)) : Multiset (ℕ × ℚ))) := by
  constructor
  · intro k
    exact fillICounts_perm inp hL k
  · intro ii
    have hcL : countIn inp L ii = rowCnt inp ii := by
      rw [rowCnt_eq_countIn]
      exact hL.countP_eq _
    have h1 := canonical_slice inp hwf hL ii
    rw [hcL] at h1
    have h2 := canonical_slice inp hwf (List.Perm.refl (allIters inp)) ii
    rw [← rowCnt_eq_countIn] at h2
    rw [h1, h2, Multiset.coe_eq_coe]
    exact (hL.filter _).map _

/-- C9 witness: the two-element instance traversed in reverse order. -/
theorem claim_C9_witness :
    WF WitIn ∧ (allIters WitIn).reverse.Perm (allIters WitIn)
    ∧ ((∀ k, fillICounts WitIn (allIters WitIn).reverse k = rowCnt WitIn k)
      ∧ (∀ ii,
          ((rowSliceL (fillRun WitIn (csrI WitIn) (allIters WitIn).reverse) (csrI WitIn)
            ii (rowCnt WitIn ii) : List (ℕ × ℚ)) : Multiset (ℕ × ℚ))
          = ((rowSliceL (fillRun WitIn (csrI WitIn) (allIters WitIn)) (csrI WitIn) ii
              (rowCnt WitIn ii) : List (ℕ × ℚ)) : Multiset (ℕ × ℚ)))) :=
  ⟨WitIn_wf, (allIters WitIn).reverse_perm,
    claim_C9 WitIn WitIn_wf (allIters WitIn).reverse ((allIters WitIn).reverse_perm)⟩

/-- C3: the row-offset array is monotone non-decreasing with `I[0] = 0`, its
last entry `I[nvdof]` equals the allocated lengths of `J` and `Data`, and the
value returned by the row-count pass (used to size `J`/`Data`) equals
`I[nvdof]`, the total of the exclusive prefix sum over the per-row
counters. -/
theorem claim_C3 (inp : LOR) :
    Monotone (sparseIJToCSR inp).I
    ∧ (sparseIJToCSR inp).I 0 = 0
    ∧ (sparseIJToCSR inp).I inp.nvdof = (sparseIJToCSR inp).jSize
    ∧ (sparseIJToCSR inp).I inp.nvdof = (sparseIJToCSR inp).dataSize
    ∧ fillIRet inp = (sparseIJToCSR inp).I inp.nvdof :=
  ⟨csrI_mono inp, csrI_zero inp, rfl, rfl, rfl⟩

/-- C10: the fill pass never modifies the matrix's row-offset array: it works
on a private copy used as the per-row write cursors, whose final state is the
offsets shifted by each row's count, while `A.I` (and the assembled matrix's
`I`) still holds exactly the exclusive prefix sums computed by the row-count
pass. -/
theorem claim_C10 (inp : LOR) (A : Mat) :
    (fillJAndData inp A).I = A.I
    ∧ (∀ ii, (fillRun inp A.I (allIters inp)).cur ii = A.I ii + rowCnt inp ii)
    ∧ (sparseIJToCSR inp).I = csrI inp := by
  refine ⟨rfl, ?_, rfl⟩
  intro ii
  rw [fillRun_cur, ← rowCnt_eq_countIn]

theorem sgnOf_eq_orient (a b : ℤ) :
    sgnOf a b = if orientB a = orientB b then 1 else -1 := by
  unfold sgnOf orientB
  by_cases h1 : 0 ≤ a <;> by_cases h2 : 0 ≤ b <;> simp [h1, h2] <;> omega

/-- C4: signed-encoded DOF indices decode as `v ≥ 0 ? v : -1 - v` (the
bitwise complement), the sign carrying the orientation flag (decoding
inverts the encoding); and in the no-conflict fill case the stored value is
`sign * local value` with sign `+1` exactly when the row's and column's
orientation flags agree. -/
theorem claim_C4 :
    (∀ v : ℤ, (0 ≤ v → (decode v : ℤ) = v) ∧ (v < 0 → (decode v : ℤ) = -1 - v))
    ∧ (∀ (n : ℕ) (b : Bool), decode (if b then (n : ℤ) else -1 - (n : ℤ)) = n
        ∧ orientB (if b then (n : ℤ) else -1 - (n : ℤ)) = b)
    ∧ (∀ (inp : LOR) (i j : ℕ),
        (ine inp (rowIdx inp i) = 1 ∨ ine inp (colIdx inp i j) = 1) →
        writeVal inp i j
          = (if orientB (inp.elDofLex (i % inp.ndof) (i / inp.ndof))
                = orientB (inp.elDofLex (inp.smap j (i % inp.ndof)).toNat (i / inp.ndof))
             then (1 : ℚ) else -1)
            * inp.V j (i % inp.ndof) (i / inp.ndof)) := by
  refine ⟨fun v => ⟨decode_of_nonneg, decode_of_neg⟩,
    fun n b => ⟨decode_encode n b, orientB_encode n b⟩, ?_⟩
  intro inp i j h1
  have h1' : (ine inp (rowIdx inp i) == 1 || ine inp (colIdx inp i j) == 1) = true := by
    rw [Bool.or_eq_true, beq_iff_eq, beq_iff_eq]
    exact h1
  unfold writeVal
  rw [if_pos h1', sgnOf_eq_orient]
  by_cases hc : orientB (inp.elDofLex (i % inp.ndof) (i / inp.ndof))
      = orientB (inp.elDofLex (inp.smap j (i % inp.ndof)).toNat (i / inp.ndof))
  · rw [if_pos hc, if_pos hc]
    norm_num
  · rw [if_neg hc, if_neg hc]
    norm_num

/-- C4 witness: decoding at 5 and -4, and the no-conflict stored value at
iteration (0, 0) of the two-element instance (row DOF 0 has a single
owner). -/
theorem claim_C4_witness :
    (0 ≤ (5 : ℤ)) ∧ (decode 5 : ℤ) = 5
    ∧ ((-4 : ℤ) < 0) ∧ (decode (-4) : ℤ) = -1 - (-4)
    ∧ (ine WitIn (rowIdx WitIn 0) = 1 ∨ ine WitIn (colIdx WitIn 0 0) = 1)
    ∧ writeVal WitIn 0 0
        = (if orientB (WitIn.elDofLex (0 % WitIn.ndof) (0 / WitIn.ndof))
              = orientB (WitIn.elDofLex (WitIn.smap 0 (0 % WitIn.ndof)).toNat
                  (0 / WitIn.ndof))
           then (1 : ℚ) else -1) * WitIn.V 0 (0 % WitIn.ndof) (0 / WitIn.ndof) :=
  ⟨by decide, (claim_C4.1 5).1 (by decide), by decide, (claim_C4.1 (-4)).2 (by decide),
   by decide, claim_C4.2.2 WitIn 0 0 (by decide)⟩

theorem hasIntegrators_iff (t1 t2 : IntegKind) (l : List IntegKind) :
    hasIntegrators t1 t2 l = true ↔ pairOk t1 t2 l := by
  unfold hasIntegrators pairOk
  match l with
  | [] => simp
  | [i0] =>
      simp only [Bool.or_eq_true, beq_iff_eq]
      constructor
      · rintro (rfl | rfl)
        · exact Or.inl rfl
        · exact Or.inr (Or.inl rfl)
      · rintro (h | h | h | h) <;> simp_all
  | [i0, i1] =>
      simp only [Bool.or_eq_true, Bool.and_eq_true, beq_iff_eq]
      constructor
      · rintro (⟨rfl, rfl⟩ | ⟨rfl, rfl⟩)
        · exact Or.inr (Or.inr (Or.inl rfl))
        · exact Or.inr (Or.inr (Or.inr rfl))
      · rintro (h | h | h | h) <;> simp_all
  | i0 :: i1 :: i2 :: rest => simp

/-- C8: the feasibility check returns true exactly when the space uses a
tensor basis and the form's domain integrators are one or both of the
supported pair for its element-collection kind (H1 with Diffusion/Mass,
ND with CurlCurl/VectorFEMass, RT with DivDiv/VectorFEMass); when it returns
false the driver attempts no assembly and reports "not supported" by
returning no matrix. -/
theorem claim_C8 (d : FormDescr) (inp : LOR) (ess : List ℕ) :
    (formIsSupported d = true
      ↔ (d.tensorBasis = true
          ∧ ((d.fec = FECKind.h1 ∧ pairOk IntegKind.diffusion IntegKind.mass d.integs)
            ∨ (d.fec = FECKind.nd ∧ pairOk IntegKind.curlcurl IntegKind.vfemass d.integs)
            ∨ (d.fec = FECKind.rt ∧ pairOk IntegKind.divdiv IntegKind.vfemass d.integs))))
    ∧ (formIsSupported d = false → tryAssembleLOR d inp ess = none) := by
  constructor
  · unfold formIsSupported
    rcases d with ⟨tb, fec, integs⟩
    dsimp only
    cases tb
    · simp
    · cases fec <;> simp [hasIntegrators_iff]
  · intro h
    unfold tryAssembleLOR
    rw [h]
    simp

/-- C8 witness: H1 space with a CurlCurl integrator is unsupported — the
check returns false and the driver returns no matrix; H1 with
Diffusion+Mass satisfies the characterization. -/
theorem claim_C8_witness :
    formIsSupported ⟨true, FECKind.h1, [IntegKind.curlcurl]⟩ = false
    ∧ tryAssembleLOR ⟨true, FECKind.h1, [IntegKind.curlcurl]⟩ WitIn [] = none
    ∧ (formIsSupported ⟨true, FECKind.h1, [IntegKind.diffusion, IntegKind.mass]⟩ = true
        ↔ ((⟨true, FECKind.h1, [IntegKind.diffusion, IntegKind.mass]⟩
              : FormDescr).tensorBasis = true
          ∧ (((⟨true, FECKind.h1, [IntegKind.diffusion, IntegKind.mass]⟩
                : FormDescr).fec = FECKind.h1
              ∧ pairOk IntegKind.diffusion IntegKind.mass
                  [IntegKind.diffusion, IntegKind.mass])
            ∨ ((⟨true, FECKind.h1, [IntegKind.diffusion, IntegKind.mass]⟩
                : FormDescr).fec = FECKind.nd
              ∧ pairOk IntegKind.curlcurl IntegKind.vfemass
                  [IntegKind.diffusion, IntegKind.mass])
            ∨ ((⟨true, FECKind.h1, [IntegKind.diffusion, IntegKind.mass]⟩
                : FormDescr).fec = FECKind.rt
              ∧ pairOk IntegKind.divdiv IntegKind.vfemass
                  [IntegKind.diffusion, IntegKind.mass])))) :=
  ⟨by decide,
   (claim_C8 ⟨true, FECKind.h1, [IntegKind.curlcurl]⟩ WitIn []).2 (by decide),
   (claim_C8 ⟨true, FECKind.h1, [IntegKind.diffusion, IntegKind.mass]⟩ WitIn []).1⟩

/-! ### Elimination: generic fold lemmas -/

theorem foldl_keep_at {α : Type} (step : (ℕ → ℚ) → α → (ℕ → ℚ)) (l : List α) (n : ℕ)
    (hkeep : ∀ d x, x ∈ l → (step d x) n = d n) :
    ∀ d, (l.foldl step d) n = d n := by
  induction l with
  | nil => intro d; rfl
  | cons x l ih =>
      intro d
      rw [List.foldl_cons, ih (fun d y hy => hkeep d y (List.mem_cons_of_mem _ hy)),
        hkeep d x (List.mem_cons_self _ _)]

theorem foldl_stay_at {α : Type} (step : (ℕ → ℚ) → α → (ℕ → ℚ)) (l : List α)
    (n : ℕ) (c : ℚ)
    (hkeep : ∀ d x, x ∈ l → (step d x) n = d n ∨ (step d x) n = c) :
    ∀ d, d n = c → (l.foldl step d) n = c := by
  induction l with
  | nil => intro d h; exact h
  | cons x l ih =>
      intro d h
      rw [List.foldl_cons]
      apply ih (fun d y hy => hkeep d y (List.mem_cons_of_mem _ hy))
      rcases hkeep d x (List.mem_cons_self _ _) with h2 | h2
      · rw [h2, h]
      · exact h2

theorem foldl_force_at {α : Type} (step : (ℕ → ℚ) → α → (ℕ → ℚ)) (l : List α)
    {x : α} (n : ℕ) (c : ℚ) (hx : x ∈ l)
    (hforce : ∀ d, (step d x) n = c)
    (hkeep : ∀ d y, y ∈ l → (step d y) n = d n ∨ (step d y) n = c) :
    ∀ d, (l.foldl step d) n = c := by
  obtain ⟨l1, l2, rfl⟩ := List.append_of_mem hx
  intro d
  rw [List.foldl_append, List.foldl_cons]
  apply foldl_stay_at step l2 n c
    (fun d y hy => hkeep d y (List.mem_append_right _ (List.mem_cons_of_mem _ hy)))
  exact hforce _

/-! ### Serial elimination: per-step lemmas -/

theorem elimStep_self_zero (I J : ℕ → ℕ) (idof t : ℕ) (d : ℕ → ℚ)
    (hJ : J (I idof + t) ≠ idof) :
    elimStep I J idof d t (I idof + t) = 0 := by
  unfold elimStep
  rw [if_neg hJ]
  cases hfind : (List.range (I (J (I idof + t) + 1) - I (J (I idof + t)))).find?
      (fun u => J (I (J (I idof + t)) + u) == idof) with
  | none =>
      dsimp only
      rw [Function.update_same]
  | some u =>
      dsimp only
      rw [Function.update_apply]
      split
      · rfl
      · rw [Function.update_same]

theorem elimStep_counterpart_zero (I J : ℕ → ℕ) (idof t : ℕ) (d : ℕ → ℚ) {r n : ℕ}
    (hJq : J (I idof + t) = r) (hne : r ≠ idof)
    (hn1 : I r ≤ n) (hn2 : n < I (r + 1)) (hJn : J n = idof)
    (hnodup : ∀ u u', u < I (r + 1) - I r → u' < I (r + 1) - I r →
      J (I r + u) = J (I r + u') → u = u') :
    elimStep I J idof d t n = 0 := by
  unfold elimStep
  rw [hJq, if_neg hne]
  have hu0 : n - I r < I (r + 1) - I r := by omega
  have hIr : I r + (n - I r) = n := by omega
  obtain ⟨a, ha, haltn, hap⟩ := find?_range_spec (n := I (r + 1) - I r)
    (p := fun u => J (I r + u) == idof) ⟨n - I r, hu0, by simp [hIr, hJn]⟩
  rw [ha]
  dsimp only
  rw [beq_iff_eq] at hap
  have haeq : a = n - I r := hnodup a (n - I r) haltn hu0 (by rw [hap, hIr, hJn])
  have hIa : I r + a = n := by omega
  rw [hIa, Function.update_same]

theorem elimStep_frame (I J : ℕ → ℕ) (hmono : Monotone I) {idof r t n : ℕ}
    (hr : r ≠ idof) (ht : t < I (idof + 1) - I idof)
    (hn1 : I r ≤ n) (hn2 : n < I (r + 1)) (hJn : J n ≠ idof) (d : ℕ → ℚ) :
    elimStep I J idof d t n = d n := by
  have hdisj : I idof + t ≠ n := by
    rcases Nat.lt_or_ge r idof with h | h
    · have : I (r + 1) ≤ I idof := hmono (by omega)
      omega
    · have hlt : idof < r := by omega
      have : I (idof + 1) ≤ I r := hmono (by omega)
      omega
  unfold elimStep
  by_cases hd : J (I idof + t) = idof
  · rw [if_pos hd]
  · rw [if_neg hd]
    cases hfind : (List.range (I (J (I idof + t) + 1) - I (J (I idof + t)))).find?
        (fun u => J (I (J (I idof + t)) + u) == idof) with
    | none =>
        dsimp only
        rw [Function.update_noteq (Ne.symm hdisj)]
    | some u =>
        dsimp only
        have hJm : J (I (J (I idof + t)) + u) = idof := by
          have := List.find?_some hfind
          rwa [beq_iff_eq] at this
        have hmn : I (J (I idof + t)) + u ≠ n := fun h => hJn (h ▸ hJm)
        rw [Function.update_noteq (Ne.symm hmn), Function.update_noteq (Ne.symm hdisj)]

theorem elimStep_diag_keep (I J : ℕ → ℕ) (hmono : Monotone I) {idof t n : ℕ}
    (hn1 : I idof ≤ n) (hn2 : n < I (idof + 1)) (hJn : J n = idof) (d : ℕ → ℚ) :
    elimStep I J idof d t n = d n := by
  unfold elimStep
  by_cases hd : J (I idof + t) = idof
  · rw [if_pos hd]
  · rw [if_neg hd]
    have hdisj : I idof + t ≠ n := fun h => hd (h ▸ hJn)
    cases hfind : (List.range (I (J (I idof + t) + 1) - I (J (I idof + t)))).find?
        (fun u => J (I (J (I idof + t)) + u) == idof) with
    | none =>
        dsimp only
        rw [Function.update_noteq (Ne.symm hdisj)]
    | some u =>
        dsimp only
        have haltn : u < I (J (I idof + t) + 1) - I (J (I idof + t)) :=
          List.mem_range.mp (List.mem_of_find?_eq_some hfind)
        have hmn : I (J (I idof + t)) + u ≠ n := by
          rcases Nat.lt_or_ge (J (I idof + t)) idof with h | h
          · have : I (J (I idof + t) + 1) ≤ I idof := hmono (by omega)
            omega
          · have hlt : idof < J (I idof + t) := by omega
            have : I (idof + 1) ≤ I (J (I idof + t)) := hmono (by omega)
            omega
        rw [Function.update_noteq (Ne.symm hmn), Function.update_noteq (Ne.symm hdisj)]

theorem elimStep_sticky (I J : ℕ → ℕ) (idof : ℕ) (d : ℕ → ℚ) (t n : ℕ) :
    elimStep I J idof d t n = d n ∨ elimStep I J idof d t n = 0 := by
  unfold elimStep
  by_cases hd : J (I idof + t) = idof
  · rw [if_pos hd]
    exact Or.inl rfl
  · rw [if_neg hd]
    cases hfind : (List.range (I (J (I idof + t) + 1) - I (J (I idof + t)))).find?
        (fun u => J (I (J (I idof + t)) + u) == idof) with
    | none =>
        dsimp only
        rw [Function.update_apply]
        split
        · exact Or.inr rfl
        · exact Or.inl rfl
    | some u =>
        dsimp only
        rw [Function.update_apply, Function.update_apply]
        split
        · exact Or.inr rfl
        · split
          · exact Or.inr rfl
          · exact Or.inl rfl

/-! ### Serial elimination: per-row and whole-pass lemmas -/

theorem elimRow_zero_row (I J : ℕ → ℕ) (idof : ℕ) {t0 : ℕ}
    (ht0 : t0 < I (idof + 1) - I idof) (hJ : J (I idof + t0) ≠ idof) (d : ℕ → ℚ) :
    elimRow I J idof d (I idof + t0) = 0 := by
  unfold elimRow
  exact foldl_force_at _ _ _ 0 (List.mem_range.mpr ht0)
    (fun d' => elimStep_self_zero I J idof t0 d' hJ)
    (fun d' y _ => elimStep_sticky I J idof d' y _) d

theorem elimRow_zero_col (I J : ℕ → ℕ) {idof r : ℕ} (hne : r ≠ idof) {tq : ℕ}
    (htq : tq < I (idof + 1) - I idof) (hJq : J (I idof + tq) = r)
    {n : ℕ} (hn1 : I r ≤ n) (hn2 : n < I (r + 1)) (hJn : J n = idof)
    (hnodup : ∀ u u', u < I (r + 1) - I r → u' < I (r + 1) - I r →
      J (I r + u) = J (I r + u') → u = u') (d : ℕ → ℚ) :
    elimRow I J idof d n = 0 := by
  unfold elimRow
  exact foldl_force_at _ _ _ 0 (List.mem_range.mpr htq)
    (fun d' => elimStep_counterpart_zero I J idof tq d' hJq hne hn1 hn2 hJn hnodup)
    (fun d' y _ => elimStep_sticky I J idof d' y _) d

theorem elimRow_keep_frame (I J : ℕ → ℕ) (hmono : Monotone I) {idof r n : ℕ}
    (hr : r ≠ idof) (hn1 : I r ≤ n) (hn2 : n < I (r + 1)) (hJn : J n ≠ idof)
    (d : ℕ → ℚ) :
    elimRow I J idof d n = d n := by
  unfold elimRow
  exact foldl_keep_at _ _ _
    (fun d' t htm =>
      elimStep_frame I J hmono hr (List.mem_range.mp htm) hn1 hn2 hJn d') d

theorem elimRow_keep_diag (I J : ℕ → ℕ) (hmono : Monotone I) {idof n : ℕ}
    (hn1 : I idof ≤ n) (hn2 : n < I (idof + 1)) (hJn : J n = idof) (d : ℕ → ℚ) :
    elimRow I J idof d n = d n := by
  unfold elimRow
  exact foldl_keep_at _ _ _
    (fun d' t _ => elimStep_diag_keep I J hmono hn1 hn2 hJn d') d

theorem elimRow_sticky (I J : ℕ → ℕ) (idof : ℕ) (d : ℕ → ℚ) (n : ℕ) :
    elimRow I J idof d n = d n ∨ elimRow I J idof d n = 0 := by
  unfold elimRow
  induction (List.range (I (idof + 1) - I idof)) generalizing d with
  | nil => exact Or.inl rfl
  | cons x l ih =>
      rw [List.foldl_cons]
      rcases ih (elimStep I J idof d x) with h | h
      · rw [h]
        exact elimStep_sticky I J idof d x n
      · exact Or.inr h

theorem foldl_or_at {α : Type} (step : (ℕ → ℚ) → α → (ℕ → ℚ)) (l : List α)
    (n : ℕ) (c : ℚ)
    (hstep : ∀ d x, x ∈ l → (step d x) n = d n ∨ (step d x) n = c) :
    ∀ d, (l.foldl step d) n = d n ∨ (l.foldl step d) n = c := by
  induction l with
  | nil => intro d; exact Or.inl rfl
  | cons x l ih =>
      intro d
      rw [List.foldl_cons]
      rcases ih (fun d y hy => hstep d y (List.mem_cons_of_mem _ hy))
        (step d x) with h | h
      · rw [h]
        exact hstep d x (List.mem_cons_self _ _)
      · exact Or.inr h

/-! ### Distributed elimination: diagonal-block lemmas -/

theorem pdStep_self_zero (I J : ℕ → ℕ) (idof t : ℕ) (d : ℕ → ℚ)
    (hJ : J (I idof + t) ≠ idof) :
    parElimDiagStep I J idof d t (I idof + t) = 0 := by
  unfold parElimDiagStep
  rw [if_neg hJ]
  cases hfind : (List.range (I (J (I idof + t) + 1) - I (J (I idof + t)))).find?
      (fun u => J (I (J (I idof + t)) + u) == idof) with
  | none =>
      dsimp only
      rw [Function.update_same]
  | some u =>
      dsimp only
      rw [Function.update_apply]
      split
      · rfl
      · rw [Function.update_same]

theorem pdStep_counterpart_zero (I J : ℕ → ℕ) (idof t : ℕ) (d : ℕ → ℚ) {r n : ℕ}
    (hJq : J (I idof + t) = r) (hne : r ≠ idof)
    (hn1 : I r ≤ n) (hn2 : n < I (r + 1)) (hJn : J n = idof)
    (hnodup : ∀ u u', u < I (r + 1) - I r → u' < I (r + 1) - I r →
      J (I r + u) = J (I r + u') → u = u') :
    parElimDiagStep I J idof d t n = 0 := by
  unfold parElimDiagStep
  rw [hJq, if_neg hne]
  have hu0 : n - I r < I (r + 1) - I r := by omega
  have hIr : I r + (n - I r) = n := by omega
  obtain ⟨a, ha, haltn, hap⟩ := find?_range_spec (n := I (r + 1) - I r)
    (p := fun u => J (I r + u) == idof) ⟨n - I r, hu0, by simp [hIr, hJn]⟩
  rw [ha]
  dsimp only
  rw [beq_iff_eq] at hap
  have haeq : a = n - I r := hnodup a (n - I r) haltn hu0 (by rw [hap, hIr, hJn])
  have hIa : I r + a = n := by omega
  rw [hIa, Function.update_same]

theorem pdStep_sets_one (I J : ℕ → ℕ) (idof t0 : ℕ) (d : ℕ → ℚ)
    (hJ : J (I idof + t0) = idof) :
    parElimDiagStep I J idof d t0 (I idof + t0) = 1 := by
  unfold parElimDiagStep
  rw [if_pos hJ, Function.update_same]

theorem pdStep_diag_keep_or_one (I J : ℕ → ℕ) (hmono : Monotone I) {idof t n : ℕ}
    (hn1 : I idof ≤ n) (hn2 : n < I (idof + 1)) (hJn : J n = idof) (d : ℕ → ℚ) :
    parElimDiagStep I J idof d t n = d n ∨ parElimDiagStep I J idof d t n = 1 := by
  unfold parElimDiagStep
  by_cases hd : J (I idof + t) = idof
  · rw [if_pos hd, Function.update_apply]
    split
    · exact Or.inr rfl
    · exact Or.inl rfl
  · rw [if_neg hd]
    have hdisj : I idof + t ≠ n := fun h => hd (h ▸ hJn)
    cases hfind : (List.range (I (J (I idof + t) + 1) - I (J (I idof + t)))).find?
        (fun u => J (I (J (I idof + t)) + u) == idof) with
    | none =>
        dsimp only
        rw [Function.update_noteq (Ne.symm hdisj)]
        exact Or.inl rfl
    | some u =>
        dsimp only
        have haltn : u < I (J (I idof + t) + 1) - I (J (I idof + t)) :=
          List.mem_range.mp (List.mem_of_find?_eq_some hfind)
        have hmn : I (J (I idof + t)) + u ≠ n := by
          rcases Nat.lt_or_ge (J (I idof + t)) idof with h | h
          · have : I (J (I idof + t) + 1) ≤ I idof := hmono (by omega)
            omega
          · have hlt : idof < J (I idof + t) := by omega
            have : I (idof + 1) ≤ I (J (I idof + t)) := hmono (by omega)
            omega
        rw [Function.update_noteq (Ne.symm hmn), Function.update_noteq (Ne.symm hdisj)]
        exact Or.inl rfl

theorem pdStep_no_one (I J : ℕ → ℕ) {idof t n : ℕ}
    (ht : t < I (idof + 1) - I idof)
    (hsafe : ¬(I idof ≤ n ∧ n < I (idof + 1) ∧ J n = idof)) (d : ℕ → ℚ) :
    parElimDiagStep I J idof d t n = d n ∨ parElimDiagStep I J idof d t n = 0 := by
  unfold parElimDiagStep
  by_cases hd : J (I idof + t) = idof
  · rw [if_pos hd, Function.update_apply]
    split
    · rename_i h
      exfalso
      exact hsafe ⟨by omega, by omega, by rw [h]; exact hd⟩
    · exact Or.inl rfl
  · rw [if_neg hd]
    cases hfind : (List.range (I (J (I idof + t) + 1) - I (J (I idof + t)))).find?
        (fun u => J (I (J (I idof + t)) + u) == idof) with
    | none =>
        dsimp only
        rw [Function.update_apply]
        split
        · exact Or.inr rfl
        · exact Or.inl rfl
    | some u =>
        dsimp only
        rw [Function.update_apply, Function.update_apply]
        split
        · exact Or.inr rfl
        · split
          · exact Or.inr rfl
          · exact Or.inl rfl

theorem pdStep_frame (I J : ℕ → ℕ) (hmono : Monotone I) {idof r t n : ℕ}
    (hr : r ≠ idof) (ht : t < I (idof + 1) - I idof)
    (hn1 : I r ≤ n) (hn2 : n < I (r + 1)) (hJn : J n ≠ idof) (d : ℕ → ℚ) :
    parElimDiagStep I J idof d t n = d n := by
  have hdisj : I idof + t ≠ n := by
    rcases Nat.lt_or_ge r idof with h | h
    · have : I (r + 1) ≤ I idof := hmono (by omega)
      omega
    · have hlt : idof < r := by omega
      have : I (idof + 1) ≤ I r := hmono (by omega)
      omega
  unfold parElimDiagStep
  by_cases hd : J (I idof + t) = idof
  · rw [if_pos hd, Function.update_noteq (Ne.symm hdisj)]
  · rw [if_neg hd]
    cases hfind : (List.range (I (J (I idof + t) + 1) - I (J (I idof + t)))).find?
        (fun u => J (I (J (I idof + t)) + u) == idof) with
    | none =>
        dsimp only
        rw [Function.update_noteq (Ne.symm hdisj)]
    | some u =>
        dsimp only
        have hJm : J (I (J (I idof + t)) + u) = idof := by
          have := List.find?_some hfind
          rwa [beq_iff_eq] at this
        have hmn : I (J (I idof + t)) + u ≠ n := fun h => hJn (h ▸ hJm)
        rw [Function.update_noteq (Ne.symm hmn), Function.update_noteq (Ne.symm hdisj)]

theorem pdRow_one (I J : ℕ → ℕ) (hmono : Monotone I) {idof n : ℕ}
    (hn1 : I idof ≤ n) (hn2 : n < I (idof + 1)) (hJn : J n = idof) (d : ℕ → ℚ) :
    parElimDiagRow I J idof d n = 1 := by
  unfold parElimDiagRow
  have ht0 : n - I idof < I (idof + 1) - I idof := by omega
  have hI : I idof + (n - I idof) = n := by omega
  refine foldl_force_at _ _ _ 1 (List.mem_range.mpr ht0) ?_
    (fun d' t _ => pdStep_diag_keep_or_one I J hmono hn1 hn2 hJn d') d
  intro d'
  have h1 := pdStep_sets_one I J idof (n - I idof) d' (by rw [hI]; exact hJn)
  rwa [hI] at h1

theorem pdRow_zero_row (I J : ℕ → ℕ) (idof : ℕ) {t0 : ℕ}
    (ht0 : t0 < I (idof + 1) - I idof) (hJ : J (I idof + t0) ≠ idof) (d : ℕ → ℚ) :
    parElimDiagRow I J idof d (I idof + t0) = 0 := by
  unfold parElimDiagRow
  refine foldl_force_at _ _ _ 0 (List.mem_range.mpr ht0)
    (fun d' => pdStep_self_zero I J idof t0 d' hJ) ?_ d
  intro d' y hy
  refine pdStep_no_one I J (List.mem_range.mp hy) ?_ d'
  rintro ⟨h1, h2, h3⟩
  exact hJ h3

theorem pdRow_zero_col (I J : ℕ → ℕ) (hmono : Monotone I) {idof r : ℕ}
    (hne : r ≠ idof) {tq : ℕ}
    (htq : tq < I (idof + 1) - I idof) (hJq : J (I idof + tq) = r)
    {n : ℕ} (hn1 : I r ≤ n) (hn2 : n < I (r + 1)) (hJn : J n = idof)
    (hnodup : ∀ u u', u < I (r + 1) - I r → u' < I (r + 1) - I r →
      J (I r + u) = J (I r + u') → u = u') (d : ℕ → ℚ) :
    parElimDiagRow I J idof d n = 0 := by
  unfold parElimDiagRow
  refine foldl_force_at _ _ _ 0 (List.mem_range.mpr htq)
    (fun d' => pdStep_counterpart_zero I J idof tq d' hJq hne hn1 hn2 hJn hnodup) ?_ d
  intro d' y hy
  refine pdStep_no_one I J (List.mem_range.mp hy) ?_ d'
  rintro ⟨h1, h2, h3⟩
  rcases Nat.lt_or_ge r idof with h | h
  · have : I (r + 1) ≤ I idof := hmono (by omega)
    omega
  · have hlt : idof < r := by omega
    have : I (idof + 1) ≤ I r := hmono (by omega)
    omega

theorem pdRow_frame (I J : ℕ → ℕ) (hmono : Monotone I) {idof r n : ℕ}
    (hr : r ≠ idof) (hn1 : I r ≤ n) (hn2 : n < I (r + 1)) (hJn : J n ≠ idof)
    (d : ℕ → ℚ) :
    parElimDiagRow I J idof d n = d n := by
  unfold parElimDiagRow
  exact foldl_keep_at _ _ _
    (fun d' t htm =>
      pdStep_frame I J hmono hr (List.mem_range.mp htm) hn1 hn2 hJn d') d

theorem pdRow_keep_or_zero (I J : ℕ → ℕ) {idof n : ℕ}
    (hsafe : ¬(I idof ≤ n ∧ n < I (idof + 1) ∧ J n = idof)) (d : ℕ → ℚ) :
    parElimDiagRow I J idof d n = d n ∨ parElimDiagRow I J idof d n = 0 := by
  unfold parElimDiagRow
  exact foldl_or_at _ _ _ 0
    (fun d' t htm => pdStep_no_one I J (List.mem_range.mp htm) hsafe d') d

/-! ### Distributed elimination: off-diagonal-block lemmas -/

theorem offdRow_zero (I : ℕ → ℕ) (idof : ℕ) {t0 : ℕ}
    (ht0 : t0 < I (idof + 1) - I idof) (d : ℕ → ℚ) :
    parElimOffdRow I idof d (I idof + t0) = 0 := by
  unfold parElimOffdRow
  refine foldl_force_at _ _ _ 0 (List.mem_range.mpr ht0)
    (fun d' => Function.update_same _ _ _) ?_ d
  intro d' y _
  rw [Function.update_apply]
  split
  · exact Or.inr rfl
  · exact Or.inl rfl

theorem offdRow_keep_or_zero (I : ℕ → ℕ) (idof : ℕ) (d : ℕ → ℚ) (n : ℕ) :
    parElimOffdRow I idof d n = d n ∨ parElimOffdRow I idof d n = 0 := by
  unfold parElimOffdRow
  refine foldl_or_at _ _ _ 0 ?_ d
  intro d' y _
  rw [Function.update_apply]
  split
  · exact Or.inr rfl
  · exact Or.inl rfl

theorem offdColStep_sticky (I J : ℕ → ℕ) (c : ℕ) (d : ℕ → ℚ) (i n : ℕ) :
    parElimOffdColStep I J c d i n = d n ∨ parElimOffdColStep I J c d i n = 0 := by
  unfold parElimOffdColStep
  cases hfind : (List.range (I (i + 1) - I i)).find? (fun u => J (I i + u) == c) with
  | none => exact Or.inl rfl
  | some u =>
      dsimp only
      rw [Function.update_apply]
      split
      · exact Or.inr rfl
      · exact Or.inl rfl

theorem offdColStep_zero (I J : ℕ → ℕ) (c : ℕ) {r n : ℕ}
    (hn1 : I r ≤ n) (hn2 : n < I (r + 1)) (hJn : J n = c)
    (hnodup : ∀ u u', u < I (r + 1) - I r → u' < I (r + 1) - I r →
      J (I r + u) = J (I r + u') → u = u') (d : ℕ → ℚ) :
    parElimOffdColStep I J c d r n = 0 := by
  unfold parElimOffdColStep
  have hu0 : n - I r < I (r + 1) - I r := by omega
  have hIr : I r + (n - I r) = n := by omega
  obtain ⟨a, ha, haltn, hap⟩ := find?_range_spec (n := I (r + 1) - I r)
    (p := fun u => J (I r + u) == c) ⟨n - I r, hu0, by simp [hIr, hJn]⟩
  rw [ha]
  dsimp only
  rw [beq_iff_eq] at hap
  have haeq : a = n - I r := hnodup a (n - I r) haltn hu0 (by rw [hap, hIr, hJn])
  have hIa : I r + a = n := by omega
  rw [hIa, Function.update_same]

theorem offdCol_zero (I J : ℕ → ℕ) (nrows c : ℕ) {r n : ℕ} (hr : r < nrows)
    (hn1 : I r ≤ n) (hn2 : n < I (r + 1)) (hJn : J n = c)
    (hnodup : ∀ u u', u < I (r + 1) - I r → u' < I (r + 1) - I r →
      J (I r + u) = J (I r + u') → u = u') (d : ℕ → ℚ) :
    parElimOffdCol I J nrows c d n = 0 := by
  unfold parElimOffdCol
  exact foldl_force_at _ _ _ 0 (List.mem_range.mpr hr)
    (fun d' => offdColStep_zero I J c hn1 hn2 hJn hnodup d')
    (fun d' y _ => offdColStep_sticky I J c d' y n) d

theorem offdCol_keep_or_zero (I J : ℕ → ℕ) (nrows c : ℕ) (d : ℕ → ℚ) (n : ℕ) :
    parElimOffdCol I J nrows c d n = d n ∨ parElimOffdCol I J nrows c d n = 0 := by
  unfold parElimOffdCol
  exact foldl_or_at _ _ _ 0 (fun d' y _ => offdColStep_sticky I J c d' y n) d

theorem eliminateBC_data (A : Mat) (ess : List ℕ) :
    (eliminateBC A ess).data
      = ess.foldl (fun d idof => elimRow A.I A.J idof d) A.data := rfl

theorem parEliminate_dD (P : ParCSR) (ess : List ℕ) (elimCol : ℕ → Bool) :
    (parEliminate P ess elimCol).dD
      = ess.foldl (fun d idof => parElimDiagRow P.dI P.dJ idof d) P.dD := rfl

theorem parEliminate_oD (P : ParCSR) (ess : List ℕ) (elimCol : ℕ → Bool) :
    (parEliminate P ess elimCol).oD
      = (colsToEliminate elimCol P.oncols).foldl
          (fun d c => parElimOffdCol P.oI P.oJ P.dnrows c d)
          (ess.foldl (fun d idof => parElimOffdRow P.oI idof d) P.oD) := rfl

/-- C5: after elimination, for every essential DOF `d` every off-diagonal
entry in row `d` and in column `d` is exactly zero, and the diagonal policy
differs by variant: the local/serial elimination leaves the assembled diagonal
value untouched, while the distributed elimination sets the diagonal-block
diagonal to 1 and additionally zeroes every off-diagonal-block entry in row
`d` and every off-diagonal-block entry whose column was learned (via the
communicated mask) to be essential on another domain. -/
theorem claim_C5 (A : Mat) (P : ParCSR) (ess : List ℕ) (elimCol : ℕ → Bool)
    (hmono : Monotone A.I)
    (hess : ∀ d ∈ ess, d < A.height)
    (hsym : ∀ r < A.height, ∀ c < A.height,
      (∃ t < A.I (r + 1) - A.I r, A.J (A.I r + t) = c) →
      ∃ t < A.I (c + 1) - A.I c, A.J (A.I c + t) = r)
    (hnodup : ∀ r < A.height, ∀ u < A.I (r + 1) - A.I r,
      ∀ u' < A.I (r + 1) - A.I r, A.J (A.I r + u) = A.J (A.I r + u') → u = u')
    (hdmono : Monotone P.dI)
    (hdess : ∀ d ∈ ess, d < P.dnrows)
    (hdsym : ∀ r < P.dnrows, ∀ c < P.dnrows,
      (∃ t < P.dI (r + 1) - P.dI r, P.dJ (P.dI r + t) = c) →
      ∃ t < P.dI (c + 1) - P.dI c, P.dJ (P.dI c + t) = r)
    (hdnodup : ∀ r < P.dnrows, ∀ u < P.dI (r + 1) - P.dI r,
      ∀ u' < P.dI (r + 1) - P.dI r, P.dJ (P.dI r + u) = P.dJ (P.dI r + u') → u = u')
    (honodup : ∀ r < P.dnrows, ∀ u < P.oI (r + 1) - P.oI r,
      ∀ u' < P.oI (r + 1) - P.oI r, P.oJ (P.oI r + u) = P.oJ (P.oI r + u') → u = u') :
    (∀ d ∈ ess, ∀ t < A.I (d + 1) - A.I d, A.J (A.I d + t) ≠ d →
      (eliminateBC A ess).data (A.I d + t) = 0)
    ∧ (∀ d ∈ ess, ∀ r < A.height, r ≠ d → ∀ t < A.I (r + 1) - A.I r,
        A.J (A.I r + t) = d → (eliminateBC A ess).data (A.I r + t) = 0)
    ∧ (∀ d ∈ ess, ∀ t < A.I (d + 1) - A.I d, A.J (A.I d + t) = d →
        (eliminateBC A ess).data (A.I d + t) = A.data (A.I d + t))
    ∧ (∀ d ∈ ess, ∀ t < P.dI (d + 1) - P.dI d, P.dJ (P.dI d + t) = d →
        (parEliminate P ess elimCol).dD (P.dI d + t) = 1)
    ∧ (∀ d ∈ ess, ∀ t < P.dI (d + 1) - P.dI d, P.dJ (P.dI d + t) ≠ d →
        (parEliminate P ess elimCol).dD (P.dI d + t) = 0)
    ∧ (∀ d ∈ ess, ∀ r < P.dnrows, r ≠ d → ∀ t < P.dI (r + 1) - P.dI r,
        P.dJ (P.dI r + t) = d → (parEliminate P ess elimCol).dD (P.dI r + t) = 0)
    ∧ (∀ d ∈ ess, ∀ t < P.oI (d + 1) - P.oI d,
        (parEliminate P ess elimCol).oD (P.oI d + t) = 0)
    ∧ (∀ c < P.oncols, elimCol c = true → ∀ r < P.dnrows,
        ∀ t < P.oI (r + 1) - P.oI r, P.oJ (P.oI r + t) = c →
        (parEliminate P ess elimCol).oD (P.oI r + t) = 0) := by
  refine ⟨?_, ?_, ?_, ?_, ?_, ?_, ?_, ?_⟩
  · -- serial: own row off-diagonal zero
    intro d hd t ht hJ
    rw [eliminateBC_data]
    exact foldl_force_at _ _ _ 0 hd
      (fun d' => elimRow_zero_row A.I A.J d ht hJ d')
      (fun d' y _ => elimRow_sticky A.I A.J y d' _) A.data
  · -- serial: column zero via the symmetric counterpart
    intro d hd r hr hrd t ht hJ
    rw [eliminateBC_data]
    obtain ⟨tq, htq, hJq⟩ := hsym r hr d (hess d hd) ⟨t, ht, hJ⟩
    exact foldl_force_at _ _ _ 0 hd
      (fun d' => elimRow_zero_col A.I A.J hrd htq hJq (by omega) (by omega) hJ
        (fun u u' hu hu' => hnodup r hr u hu u' hu') d')
      (fun d' y _ => elimRow_sticky A.I A.J y d' _) A.data
  · -- serial: diagonal untouched
    intro d hd t ht hJ
    rw [eliminateBC_data]
    apply foldl_keep_at
    intro d' y hy
    by_cases hyd : y = d
    · subst hyd
      exact elimRow_keep_diag A.I A.J hmono (by omega) (by omega) hJ d'
    · exact elimRow_keep_frame A.I A.J hmono (fun h => hyd h.symm) (by omega)
        (by omega) (by rw [hJ]; exact fun h => hyd h.symm) d'
  · -- distributed: diagonal set to 1
    intro d hd t ht hJ
    rw [parEliminate_dD]
    refine foldl_force_at _ _ _ 1 hd
      (fun d' => pdRow_one P.dI P.dJ hdmono (by omega) (by omega) hJ d') ?_ P.dD
    intro d' y _
    by_cases hyd : y = d
    · subst hyd
      exact Or.inr (pdRow_one P.dI P.dJ hdmono (by omega) (by omega) hJ d')
    · exact Or.inl (pdRow_frame P.dI P.dJ hdmono (fun h => hyd h.symm) (by omega)
        (by omega) (by rw [hJ]; exact fun h => hyd h.symm) d')
  · -- distributed: own diagonal-block row off-diagonal zero
    intro d hd t ht hJ
    rw [parEliminate_dD]
    refine foldl_force_at _ _ _ 0 hd
      (fun d' => pdRow_zero_row P.dI P.dJ d ht hJ d') ?_ P.dD
    intro d' y _
    refine pdRow_keep_or_zero P.dI P.dJ ?_ d'
    rintro ⟨h1, h2, h3⟩
    by_cases hyd : y = d
    · subst hyd
      exact hJ h3
    · rcases Nat.lt_or_ge y d with h | h
      · have : P.dI (y + 1) ≤ P.dI d := hdmono (by omega)
        omega
      · have hlt : d < y := by omega
        have : P.dI (d + 1) ≤ P.dI y := hdmono (by omega)
        omega
  · -- distributed: diagonal-block column zero
    intro d hd r hr hrd t ht hJ
    rw [parEliminate_dD]
    obtain ⟨tq, htq, hJq⟩ := hdsym r hr d (hdess d hd) ⟨t, ht, hJ⟩
    refine foldl_force_at _ _ _ 0 hd
      (fun d' => pdRow_zero_col P.dI P.dJ hdmono hrd htq hJq (by omega) (by omega)
        hJ (fun u u' hu hu' => hdnodup r hr u hu u' hu') d') ?_ P.dD
    intro d' y _
    refine pdRow_keep_or_zero P.dI P.dJ ?_ d'
    rintro ⟨h1, h2, h3⟩
    by_cases hyd : y = d
    · subst hyd
      rcases Nat.lt_or_ge r y with h | h
      · have : P.dI (r + 1) ≤ P.dI y := hdmono (by omega)
        omega
      · have hlt : y < r := by omega
        have : P.dI (y + 1) ≤ P.dI r := hdmono (by omega)
        omega
    · rw [hJ] at h3
      exact hyd h3.symm
  · -- distributed: off-diagonal-block rows zeroed
    intro d hd t ht
    rw [parEliminate_oD]
    have h1 : (ess.foldl (fun d idof => parElimOffdRow P.oI idof d) P.oD)
        (P.oI d + t) = 0 :=
      foldl_force_at _ _ _ 0 hd (fun d' => offdRow_zero P.oI d ht d')
        (fun d' y _ => offdRow_keep_or_zero P.oI y d' _) P.oD
    exact foldl_stay_at _ _ _ 0
      (fun d' y _ => offdCol_keep_or_zero P.oI P.oJ P.dnrows y d' _) _ h1
  · -- distributed: learned off-diagonal columns zeroed
    intro c hc helim r hr t ht hJ
    rw [parEliminate_oD]
    have hmem : c ∈ colsToEliminate elimCol P.oncols := by
      unfold colsToEliminate
      rw [List.mem_filter]
      exact ⟨List.mem_range.mpr hc, helim⟩
    exact foldl_force_at _ _ _ 0 hmem
      (fun d' => offdCol_zero P.oI P.oJ P.dnrows c hr (by omega) (by omega) hJ
        (fun u u' hu hu' => honodup r hr u hu u' hu') d')
      (fun d' y _ => offdCol_keep_or_zero P.oI P.oJ P.dnrows y d' _) _

/-- C6: essential-DOF elimination modifies only the values array — the
dimensions, row offsets, column indices and allocated sizes are unchanged —
and every entry whose row and column are both non-essential keeps its
pre-elimination value. -/
theorem claim_C6 (A : Mat) (ess : List ℕ)
    (hmono : Monotone A.I) (hess : ∀ d ∈ ess, d < A.height) :
    (eliminateBC A ess).height = A.height
    ∧ (eliminateBC A ess).width = A.width
    ∧ (eliminateBC A ess).I = A.I
    ∧ (eliminateBC A ess).J = A.J
    ∧ (eliminateBC A ess).jSize = A.jSize
    ∧ (eliminateBC A ess).dataSize = A.dataSize
    ∧ (∀ r < A.height, r ∉ ess → ∀ t < A.I (r + 1) - A.I r,
        A.J (A.I r + t) ∉ ess →
        (eliminateBC A ess).data (A.I r + t) = A.data (A.I r + t)) := by
  refine ⟨rfl, rfl, rfl, rfl, rfl, rfl, ?_⟩
  intro r hr hrness t ht hJness
  rw [eliminateBC_data]
  apply foldl_keep_at
  intro d' y hy
  have hry : r ≠ y := fun h => hrness (h ▸ hy)
  have hJy : A.J (A.I r + t) ≠ y := fun h => hJness (h ▸ hy)
  exact elimRow_keep_frame A.I A.J hmono hry (by omega) (by omega) hJy d'

theorem Wit4_mono : Monotone Wit4.I := by
  intro a b h
  show 4 * a ≤ 4 * b
  omega

theorem WitPar_dmono : Monotone WitPar.dI := by
  intro a b h
  show 2 * a ≤ 2 * b
  omega

theorem claim_C5_witness :
    Monotone Wit4.I
    ∧ (∀ d ∈ [0], d < Wit4.height)
    ∧ (∀ r < Wit4.height, ∀ c < Wit4.height,
        (∃ t < Wit4.I (r + 1) - Wit4.I r, Wit4.J (Wit4.I r + t) = c) →
        ∃ t < Wit4.I (c + 1) - Wit4.I c, Wit4.J (Wit4.I c + t) = r)
    ∧ (∀ r < Wit4.height, ∀ u < Wit4.I (r + 1) - Wit4.I r,
        ∀ u' < Wit4.I (r + 1) - Wit4.I r,
        Wit4.J (Wit4.I r + u) = Wit4.J (Wit4.I r + u') → u = u')
    ∧ Monotone WitPar.dI
    ∧ (∀ d ∈ [0], d < WitPar.dnrows)
    ∧ (∀ r < WitPar.dnrows, ∀ c < WitPar.dnrows,
        (∃ t < WitPar.dI (r + 1) - WitPar.dI r, WitPar.dJ (WitPar.dI r + t) = c) →
        ∃ t < WitPar.dI (c + 1) - WitPar.dI c, WitPar.dJ (WitPar.dI c + t) = r)
    ∧ (∀ r < WitPar.dnrows, ∀ u < WitPar.dI (r + 1) - WitPar.dI r,
        ∀ u' < WitPar.dI (r + 1) - WitPar.dI r,
        WitPar.dJ (WitPar.dI r + u) = WitPar.dJ (WitPar.dI r + u') → u = u')
    ∧ (∀ r < WitPar.dnrows, ∀ u < WitPar.oI (r + 1) - WitPar.oI r,
        ∀ u' < WitPar.oI (r + 1) - WitPar.oI r,
        WitPar.oJ (WitPar.oI r + u) = WitPar.oJ (WitPar.oI r + u') → u = u')
    ∧ ((∀ d ∈ [0], ∀ t < Wit4.I (d + 1) - Wit4.I d, Wit4.J (Wit4.I d + t) ≠ d →
          (eliminateBC Wit4 [0]).data (Wit4.I d + t) = 0)
        ∧ (∀ d ∈ [0], ∀ r < Wit4.height, r ≠ d → ∀ t < Wit4.I (r + 1) - Wit4.I r,
            Wit4.J (Wit4.I r + t) = d → (eliminateBC Wit4 [0]).data (Wit4.I r + t) = 0)
        ∧ (∀ d ∈ [0], ∀ t < Wit4.I (d + 1) - Wit4.I d, Wit4.J (Wit4.I d + t) = d →
            (eliminateBC Wit4 [0]).data (Wit4.I d + t) = Wit4.data (Wit4.I d + t))
        ∧ (∀ d ∈ [0], ∀ t < WitPar.dI (d + 1) - WitPar.dI d,
            WitPar.dJ (WitPar.dI d + t) = d →
            (parEliminate WitPar [0] (fun c => c == 1)).dD (WitPar.dI d + t) = 1)
        ∧ (∀ d ∈ [0], ∀ t < WitPar.dI (d + 1) - WitPar.dI d,
            WitPar.dJ (WitPar.dI d + t) ≠ d →
            (parEliminate WitPar [0] (fun c => c == 1)).dD (WitPar.dI d + t) = 0)
        ∧ (∀ d ∈ [0], ∀ r < WitPar.dnrows, r ≠ d →
            ∀ t < WitPar.dI (r + 1) - WitPar.dI r, WitPar.dJ (WitPar.dI r + t) = d →
            (parEliminate WitPar [0] (fun c => c == 1)).dD (WitPar.dI r + t) = 0)
        ∧ (∀ d ∈ [0], ∀ t < WitPar.oI (d + 1) - WitPar.oI d,
            (parEliminate WitPar [0] (fun c => c == 1)).oD (WitPar.oI d + t) = 0)
        ∧ (∀ c < WitPar.oncols, (fun c => c == 1) c = true → ∀ r < WitPar.dnrows,
            ∀ t < WitPar.oI (r + 1) - WitPar.oI r, WitPar.oJ (WitPar.oI r + t) = c →
            (parEliminate WitPar [0] (fun c => c == 1)).oD (WitPar.oI r + t) = 0)) := by
  refine ⟨Wit4_mono, by decide, by decide, by decide, WitPar_dmono, by decide,
    by decide, by decide, by decide, ?_⟩
  exact claim_C5 Wit4 WitPar [0] (fun c => c == 1) Wit4_mono (by decide) (by decide)
    (by decide) WitPar_dmono (by decide) (by decide) (by decide) (by decide)

theorem claim_C6_witness :
    Monotone Wit4.I
    ∧ (∀ d ∈ [0], d < Wit4.height)
    ∧ ((eliminateBC Wit4 [0]).height = Wit4.height
        ∧ (eliminateBC Wit4 [0]).width = Wit4.width
        ∧ (eliminateBC Wit4 [0]).I = Wit4.I
        ∧ (eliminateBC Wit4 [0]).J = Wit4.J
        ∧ (eliminateBC Wit4 [0]).jSize = Wit4.jSize
        ∧ (eliminateBC Wit4 [0]).dataSize = Wit4.dataSize
        ∧ (∀ r < Wit4.height, r ∉ [0] → ∀ t < Wit4.I (r + 1) - Wit4.I r,
            Wit4.J (Wit4.I r + t) ∉ [0] →
            (eliminateBC Wit4 [0]).data (Wit4.I r + t) = Wit4.data (Wit4.I r + t))) :=
  ⟨Wit4_mono, by decide, claim_C6 Wit4 [0] Wit4_mono (by decide)⟩

/-! ### Degree bound and the fixed-size buffers (C7) -/

theorem any_ext (l : List ℕ) (p q : ℕ → Bool) (h : ∀ x ∈ l, p x = q x) :
    l.any p = l.any q := by
  induction l with
  | nil => rfl
  | cons a t ih =>
    simp [List.any_cons, h a (by simp), ih fun x hx => h x (by simp [hx])]

/-- When the incidence degree respects the bound 16, every buffer write lands
in bounds and the buffer holds exactly the element list. -/
theorem ieltsBuf_read (inp : LOR) (d : ℕ) (hle : ine inp d ≤ 16) :
    ∀ t < ine inp d, ieltsBuf inp d t = posElt inp d t := by
  have key : ∀ n, n ≤ 16 → ∀ t < n,
      ((List.range n).foldl (fun buf e => bufWrite buf e (posElt inp d e))
        fun _ => 0) t = posElt inp d t := by
    intro n
    induction n with
    | zero => intro _ t ht; omega
    | succ m ih =>
      intro hle t ht
      rw [List.range_succ, List.foldl_append]
      simp only [List.foldl_cons, List.foldl_nil]
      unfold bufWrite
      rw [if_pos (by omega : m < 16)]
      by_cases htm : t = m
      · subst htm
        rw [Function.update_same]
      · rw [Function.update_noteq htm]
        exact ih (by omega) t (by omega)
  intro t ht
  exact key (ine inp d) hle t ht

/-- `GetMinEltBuf` only reads its buffers below the given counts. -/
theorem getMinEltBuf_ext (f f' g g' : ℕ → ℕ) (n m : ℕ)
    (hf : ∀ i < n, f i = f' i) (hg : ∀ j < m, g j = g' j) :
    GetMinEltBuf f n g m = GetMinEltBuf f' n g' m := by
  unfold GetMinEltBuf
  apply List.foldl_ext
  intro acc i hi
  rw [hf i (List.mem_range.mp hi)]
  by_cases hlt : f' i < acc
  · rw [if_pos hlt, if_pos hlt]
    have hany : ((List.range m).any fun j => f' i == g j)
        = ((List.range m).any fun j => f' i == g' j) :=
      any_ext _ _ _ fun j hj => by rw [hg j (List.mem_range.mp hj)]
    rw [hany]
  · rw [if_neg hlt, if_neg hlt]

/-- `GetMinEltBuf` on counted buffers equals `GetMinElt` on the lists the
buffers hold. -/
theorem getMinEltBuf_eq_list (f g : ℕ → ℕ) (n m : ℕ) :
    GetMinEltBuf f n g m
      = GetMinElt ((List.range n).map f) ((List.range m).map g) := by
  unfold GetMinEltBuf GetMinElt
  rw [List.foldl_map]
  apply List.foldl_ext
  intro acc i _
  by_cases hlt : f i < acc
  · rw [if_pos hlt, if_pos hlt]
    have hc : ((List.range m).map g).contains (f i)
        = ((List.range m).any fun j => f i == g j) := by
      rw [List.contains_eq_any_beq, List.any_map]
      rfl
    rw [hc]
  · rw [if_neg hlt, if_neg hlt]

/-- Under the degree bound, the buffered per-iteration condition agrees with
the list-based one. -/
theorem writesBuf_eq (inp : LOR) (hwf : WF inp) {i j : ℕ}
    (hi : i < inp.ndof * inp.nel) (hj : j < inp.nnzRow) :
    writesBuf inp i j = writes inp i j := by
  unfold writesBuf writes
  by_cases hsm : inp.smap j (i % inp.ndof) < 0
  · rw [if_pos hsm, if_pos hsm]
  · rw [if_neg hsm, if_neg hsm]
    by_cases h1 : (ine inp (rowIdx inp i) == 1 || ine inp (colIdx inp i j) == 1)
        = true
    · rw [if_pos h1, if_pos h1]
    · rw [if_neg h1, if_neg h1]
      have hrow : rowIdx inp i < inp.nvdof :=
        hwf.dof_lt _ (idx_mod_lt inp hwf i) _ (idx_div_lt inp hwf hi)
      have hcol : colIdx inp i j < inp.nvdof :=
        hwf.dof_lt _
          (hwf.tmpl_rng _ (idx_mod_lt inp hwf i) j hj (by omega)) _
          (idx_div_lt inp hwf hi)
      have hbuf : GetMinEltBuf (ieltsBuf inp (rowIdx inp i))
            (ine inp (rowIdx inp i)) (ieltsBuf inp (colIdx inp i j))
            (ine inp (colIdx inp i j))
          = GetMinElt (ielts inp (rowIdx inp i)) (ielts inp (colIdx inp i j)) := by
        rw [getMinEltBuf_ext _ (posElt inp (rowIdx inp i)) _
          (posElt inp (colIdx inp i j)) _ _
          (ieltsBuf_read inp _ (hwf.deg_le _ hrow))
          (ieltsBuf_read inp _ (hwf.deg_le _ hcol))]
        rw [getMinEltBuf_eq_list]
        rfl
      rw [hbuf]

/-- C7 (amended): the source contains no degree check, so the spec's "asserts
and fails" does not hold; what is true is the bracketed in-bounds property:
under the precondition that every incidence list has length at most 16
(`WF.deg_le`), every buffer index written by the passes is in bounds, and the
fixed-size-16 buffered computation agrees everywhere with the unbounded one —
the per-iteration condition and the per-row counts are identical. -/
theorem claim_C7 (inp : LOR) (hwf : WF inp) :
    (∀ d < inp.nvdof, ∀ t < ine inp d, t < 16)
    ∧ (∀ p ∈ allIters inp, writesBuf inp p.1 p.2 = writes inp p.1 p.2)
    ∧ (∀ ii, rowCntBuf inp ii = rowCnt inp ii) := by
  refine ⟨fun d hd t ht => by have := hwf.deg_le d hd; omega, ?_, ?_⟩
  · intro p hp
    obtain ⟨hi, hj⟩ := (mem_allIters_iff inp p).mp hp
    exact writesBuf_eq inp hwf hi hj
  · intro ii
    unfold rowCntBuf rowCnt fillICountsBuf fillICounts
    have hfold : (allIters inp).foldl
        (fun cnt p =>
          if writesBuf inp p.1 p.2 then
            Function.update cnt (rowIdx inp p.1) (cnt (rowIdx inp p.1) + 1)
          else cnt) (fun _ => 0)
        = (allIters inp).foldl (fillIStep inp) fun _ => 0 := by
      apply List.foldl_ext
      intro cnt p hp
      obtain ⟨hi, hj⟩ := (mem_allIters_iff inp p).mp hp
      unfold fillIStep
      rw [writesBuf_eq inp hwf hi hj]
    rw [hfold]

theorem claim_C7_witness :
    WF WitIn
    ∧ ((∀ d < WitIn.nvdof, ∀ t < ine WitIn d, t < 16)
        ∧ (∀ p ∈ allIters WitIn, writesBuf WitIn p.1 p.2 = writes WitIn p.1 p.2)
        ∧ (∀ ii, rowCntBuf WitIn ii = rowCnt WitIn ii)) :=
  ⟨WitIn_wf, claim_C7 WitIn WitIn_wf⟩

/-- C7 counterexample: on `CexIn` a global DOF is referenced by 17 elements, so
the element-buffer loop writes index 16 of a 16-slot buffer — out of bounds —
and the counting pass proceeds and returns a nonzero count normally; no
degree-exceeded failure exists anywhere in the pass. -/
theorem claim_C7_cex :
    16 < ine CexIn 0
    ∧ (∃ t ∈ List.range (ine CexIn 0), ¬ t < 16)
    ∧ fillIRet CexIn = 1 :=
  ⟨by decide, ⟨16, by decide, by decide⟩, by decide⟩

end LORAssembly
